import Mathlib

/-!
Verification model of the `strkey` codec (`src/ser.rs`, `src/de.rs`,
`src/error.rs`): an order-preserving, non-self-describing encoding of
structured values into `:`-delimited text components.

Machine integers are embedded as their unsigned bit patterns (`Nat` below the
relevant power of two); signed values are related to patterns through
`toSigned`/`toUnsigned`.  Documents are lists of characters; the byte level is
reached through an explicit UTF-8 codec (`utf8EncodeChar`, `utf8Decode`).
-/

namespace Strkey

/-! ## Two's-complement pattern helpers -/

/-- The signed value of a `w`-byte two's-complement bit pattern `b < 2^(8*w)`. -/
def toSigned (w : Nat) (b : Nat) : Int :=
  if b < 2 ^ (8 * w - 1) then (b : Int) else (b : Int) - 2 ^ (8 * w)

/-- The `w`-byte two's-complement bit pattern of a signed value. -/
def toUnsigned (w : Nat) (n : Int) : Nat :=
  (n % (2 : Int) ^ (8 * w)).toNat

/-! ## Hex codec

The encoder side is `write_encode_hex` (src/ser.rs lines 93-98), which calls
`hex::encode_to_slice`: every input byte becomes two lowercase hex characters.
-/

/-- The lowercase hex character for a digit value `d < 16` (`0-9a-f`). -/
def hexDigitChar (d : Nat) : Char :=
  Char.ofNat (if d < 10 then 48 + d else 87 + d)

/-- One byte as two lowercase hex characters (high nibble first). -/
def hexEncodeByte (b : Nat) : List Char :=
  [hexDigitChar (b / 16), hexDigitChar (b % 16)]

/-- `hex::encode_to_slice`: each byte becomes two lowercase hex characters. -/
def hexEncode (bs : List Nat) : List Char :=
  (bs.map hexEncodeByte).flatten

/-- The numeric value of a hex digit character, lowercase alphabet only. -/
def hexDigitVal (c : Char) : Option Nat :=
  if 48 ≤ c.toNat ∧ c.toNat ≤ 57 then some (c.toNat - 48)
  else if 97 ≤ c.toNat ∧ c.toNat ≤ 102 then some (c.toNat - 87)
  else none

/-- Failure cases of hex decoding (the `hex` crate's error type). -/
inductive HexError where
  | oddLength
  | invalidChar (c : Char)
deriving DecidableEq

/-- Decode consecutive pairs of hex characters into bytes. -/
def hexDecodePairs : List Char → Except HexError (List Nat)
  | [] => .ok []
  | [c] => .error (.invalidChar c)
  | c1 :: c2 :: rest =>
    match hexDigitVal c1 with
    | none => .error (.invalidChar c1)
    | some d1 =>
      match hexDigitVal c2 with
      | none => .error (.invalidChar c2)
      | some d2 =>
        match hexDecodePairs rest with
        | .error e => .error e
        | .ok bs => .ok ((d1 * 16 + d2) :: bs)

/-- Modelled from the spec: the Hex Codec's decode direction is implemented by
the external `hex` crate (`hex::decode_to_slice`), whose code is not under
`src/`.  Section 4.2 of the spec: "`decode(text) -> bytes`: fails with a data
error if the text has odd length or any character outside `0-9a-f`." -/
def hexDecode (cs : List Char) : Except HexError (List Nat) :=
  if cs.length % 2 = 1 then .error .oddLength else hexDecodePairs cs

/-! ## Big-endian byte strings (`to_be_bytes` / `from_be_bytes`) -/

/-- The `w` big-endian bytes of `n` (Rust `to_be_bytes` on a `w`-byte integer,
applied to the unsigned bit pattern). -/
def beBytes : Nat → Nat → List Nat
  | 0, _ => []
  | w + 1, n => beBytes w (n / 256) ++ [n % 256]

/-- Rust `from_be_bytes`: the unsigned value of a big-endian byte string. -/
def beToNat (bs : List Nat) : Nat :=
  bs.foldl (fun acc b => acc * 256 + b) 0

theorem length_beBytes (w n : Nat) : (beBytes w n).length = w := by
  induction w generalizing n with
  | zero => rfl
  | succ w ih => simp [beBytes, ih]

theorem beBytes_lt (w n : Nat) : ∀ b ∈ beBytes w n, b < 256 := by
  induction w generalizing n with
  | zero => intro b hb; simp [beBytes] at hb
  | succ w ih =>
    intro b hb
    simp only [beBytes, List.mem_append, List.mem_singleton] at hb
    rcases hb with hb | hb
    · exact ih _ b hb
    · subst hb; exact Nat.mod_lt _ (by norm_num)

theorem beToNat_append_one (bs : List Nat) (b : Nat) :
    beToNat (bs ++ [b]) = beToNat bs * 256 + b := by
  simp [beToNat, List.foldl_append]

theorem beToNat_beBytes (w n : Nat) (h : n < 2 ^ (8 * w)) :
    beToNat (beBytes w n) = n := by
  induction w generalizing n with
  | zero =>
    interval_cases n
    rfl
  | succ w ih =>
    have hpow : (2 : Nat) ^ (8 * (w + 1)) = 256 * 2 ^ (8 * w) := by
      rw [Nat.mul_add, pow_add]
      ring
    have hdiv : n / 256 < 2 ^ (8 * w) := Nat.div_lt_of_lt_mul (by omega)
    rw [beBytes, beToNat_append_one, ih _ hdiv]
    omega

theorem hexDigitVal_hexDigitChar : ∀ d < 16, hexDigitVal (hexDigitChar d) = some d := by
  decide

theorem hexDecodePairs_append (b : Nat) (h : b < 256) (rest : List Char) :
    hexDecodePairs (hexEncodeByte b ++ rest) =
      (hexDecodePairs rest).map fun tail => b :: tail := by
  have h1 : b / 16 < 16 := Nat.div_lt_of_lt_mul (by omega)
  have h2 : b % 16 < 16 := Nat.mod_lt _ (by norm_num)
  have hb : b / 16 * 16 + b % 16 = b := by omega
  simp only [hexEncodeByte, List.cons_append, List.nil_append, hexDecodePairs,
    hexDigitVal_hexDigitChar _ h1, hexDigitVal_hexDigitChar _ h2]
  have hnil : ([] : List Char).append rest = rest := rfl
  rw [hnil]
  cases hr : hexDecodePairs rest with
  | error e => rfl
  | ok bs' => simp [Except.map, hb]

theorem hexDecodePairs_hexEncode (bs : List Nat) (h : ∀ b ∈ bs, b < 256) :
    hexDecodePairs (hexEncode bs) = .ok bs := by
  induction bs with
  | nil => rfl
  | cons b tail ih =>
    have htail := ih fun x hx => h x (List.mem_cons_of_mem _ hx)
    have hb := h b (List.mem_cons_self _ _)
    have hsplit : hexEncode (b :: tail) = hexEncodeByte b ++ hexEncode tail := by
      simp [hexEncode]
    rw [hsplit, hexDecodePairs_append b hb, htail]
    rfl

theorem length_hexEncode (bs : List Nat) : (hexEncode bs).length = 2 * bs.length := by
  induction bs with
  | nil => rfl
  | cons b tail ih =>
    have : hexEncode (b :: tail) = hexEncodeByte b ++ hexEncode tail := by
      simp [hexEncode]
    rw [this]
    simp only [List.length_append, List.length_cons, ih, hexEncodeByte]
    simp
    omega

theorem hexDecode_hexEncode (bs : List Nat) (h : ∀ b ∈ bs, b < 256) :
    hexDecode (hexEncode bs) = .ok bs := by
  rw [hexDecode, length_hexEncode]
  simp only [Nat.mul_mod_right]
  rw [if_neg (by omega)]
  exact hexDecodePairs_hexEncode bs h

/-! ## Bitwise facts used by the numeric transforms -/

theorem xor_two_pow_eq_add {k a : Nat} (h : a < 2 ^ k) : a ^^^ 2 ^ k = a + 2 ^ k := by
  apply Nat.eq_of_testBit_eq
  intro i
  rw [Nat.testBit_xor]
  rcases Nat.lt_trichotomy i k with hik | hik | hik
  · rw [Nat.add_comm, Nat.testBit_two_pow_add_gt hik, Nat.testBit_two_pow_of_ne (by omega)]
    simp
  · subst hik
    rw [Nat.add_comm, Nat.testBit_two_pow_add_eq, Nat.testBit_two_pow_self,
      Nat.testBit_lt_two_pow h]
    rfl
  · have hk1 : (2 : Nat) ^ (k + 1) ≤ 2 ^ i := Nat.pow_le_pow_right (by norm_num) hik
    have hk2 : (2 : Nat) ^ (k + 1) = 2 ^ k + 2 ^ k := by rw [pow_succ]; omega
    have h1 : a + 2 ^ k < 2 ^ i := by omega
    have h2 : a < 2 ^ i := by omega
    rw [Nat.testBit_lt_two_pow h1, Nat.testBit_lt_two_pow h2,
      Nat.testBit_two_pow_of_ne (by omega)]
    rfl

theorem xor_two_pow_eq_sub {k a : Nat} (h1 : 2 ^ k ≤ a) (h2 : a < 2 ^ (k + 1)) :
    a ^^^ 2 ^ k = a - 2 ^ k := by
  have hk2 : (2 : Nat) ^ (k + 1) = 2 ^ k + 2 ^ k := by rw [pow_succ]; omega
  have h3 : a - 2 ^ k < 2 ^ k := by omega
  have h4 := xor_two_pow_eq_add h3
  calc a ^^^ 2 ^ k = ((a - 2 ^ k) + 2 ^ k) ^^^ 2 ^ k := by rw [Nat.sub_add_cancel h1]
    _ = ((a - 2 ^ k) ^^^ 2 ^ k) ^^^ 2 ^ k := by rw [h4]
    _ = a - 2 ^ k := by rw [Nat.xor_assoc, Nat.xor_self, Nat.xor_zero]

theorem xor_two_pow_sub_one {k a : Nat} (h : a < 2 ^ k) :
    a ^^^ (2 ^ k - 1) = 2 ^ k - 1 - a := by
  induction k generalizing a with
  | zero => interval_cases a; rfl
  | succ k ih =>
    have hk2 : (2 : Nat) ^ (k + 1) = 2 ^ k + 2 ^ k := by rw [pow_succ]; omega
    have hones : (2 : Nat) ^ (k + 1) - 1 = 2 ^ k ^^^ (2 ^ k - 1) := by
      rw [Nat.xor_comm, xor_two_pow_eq_add (by omega : 2 ^ k - 1 < 2 ^ k)]
      omega
    by_cases hc : a < 2 ^ k
    · have key : a ^^^ (2 ^ (k + 1) - 1) = (a ^^^ (2 ^ k - 1)) ^^^ 2 ^ k := by
        rw [hones, Nat.xor_comm (2 ^ k) (2 ^ k - 1), ← Nat.xor_assoc]
      rw [key, ih hc, xor_two_pow_eq_add (by omega : 2 ^ k - 1 - a < 2 ^ k)]
      omega
    · have key : a ^^^ (2 ^ (k + 1) - 1) = (a ^^^ 2 ^ k) ^^^ (2 ^ k - 1) := by
        rw [hones, ← Nat.xor_assoc]
      rw [key, xor_two_pow_eq_sub (by omega) h, ih (by omega : a - 2 ^ k < 2 ^ k)]
      omega

theorem lor_ones {k a : Nat} (h : a < 2 ^ k) : (2 ^ k - 1) ||| a = 2 ^ k - 1 := by
  apply Nat.eq_of_testBit_eq
  intro i
  rw [Nat.testBit_or, Nat.testBit_two_pow_sub_one]
  by_cases hik : i < k
  · simp [hik]
  · have : a < 2 ^ i := lt_of_lt_of_le h (Nat.pow_le_pow_right (by norm_num) (by omega))
    simp [hik, Nat.testBit_lt_two_pow this]

/-! ## Numeric transforms (src/ser.rs lines 119-235, src/de.rs lines 128-278)

Signed integers and floats are embedded as their unsigned bit patterns; the
Rust operations on `iN` become the corresponding operations on patterns:
  * `v ^ iN::MIN` is `Nat.xor` with `2^(8*N-1)`,
  * the arithmetic shift `v >> (bits-1)` of an `iN` is all-ones for a pattern
    with the sign bit set and zero otherwise,
  * `| iN::MIN` is `Nat.lor` with the sign bit.
-/

/-- The sign-bit XOR of `serialize_iN`/`deserialize_iN` on a `w`-byte pattern. -/
def iXorPattern (w : Nat) (b : Nat) : Nat :=
  b ^^^ 2 ^ (8 * w - 1)

/-- `serialize_iN` (src/ser.rs): the bit pattern written for signed value `v`
is the pattern of `v ^ iN::MIN`. -/
def iEncPattern (w : Nat) (n : Int) : Nat :=
  iXorPattern w (toUnsigned w n)

/-- `deserialize_iN` (src/de.rs): `iN::from_be_bytes(buffer) ^ iN::MIN` as a
signed value, starting from the decoded pattern `p`. -/
def iDecValue (w : Nat) (p : Nat) : Int :=
  toSigned w (iXorPattern w p)

/-- `serialize_f32`/`serialize_f64` bit transform on a `wbits`-bit pattern `b`:
`v ^ ((v >> (wbits-1)) | MIN)` with `v` the pattern read as a signed integer. -/
def fEncPattern (wbits : Nat) (b : Nat) : Nat :=
  b ^^^ ((if b < 2 ^ (wbits - 1) then 0 else 2 ^ wbits - 1) ||| 2 ^ (wbits - 1))

/-- `deserialize_f32`/`deserialize_f64` bit transform on a pattern `p`:
`v ^ (((v ^ MIN) >> (wbits-1)) | MIN)` with `v` the pattern as a signed integer. -/
def fDecPattern (wbits : Nat) (p : Nat) : Nat :=
  p ^^^ ((if p ^^^ 2 ^ (wbits - 1) < 2 ^ (wbits - 1) then 0 else 2 ^ wbits - 1) |||
    2 ^ (wbits - 1))

theorem iXorPattern_involutive (w b : Nat) : iXorPattern w (iXorPattern w b) = b := by
  simp [iXorPattern, Nat.xor_assoc]

theorem toUnsigned_eq {w : Nat} (n : Int) (hw : 0 < w)
    (h1 : -(2 ^ (8 * w - 1)) ≤ n) (h2 : n < 2 ^ (8 * w - 1)) :
    toUnsigned w n = if 0 ≤ n then n.toNat else (n + 2 ^ (8 * w)).toNat := by
  have hsplit : 8 * w - 1 + 1 = 8 * w := by omega
  have hk2i : ((2 : Int)) ^ (8 * w) = 2 ^ (8 * w - 1) + 2 ^ (8 * w - 1) := by
    have hp := pow_succ (2 : Int) (8 * w - 1)
    rw [hsplit] at hp
    rw [hp]
    ring
  have hposi : (0 : Int) < 2 ^ (8 * w - 1) := by positivity
  rcases le_or_lt 0 n with hn | hn
  · rw [if_pos hn, toUnsigned, Int.emod_eq_of_lt hn (by omega)]
  · rw [if_neg (by omega), toUnsigned]
    rw [show n % (2 : Int) ^ (8 * w) = (n + 2 ^ (8 * w)) % 2 ^ (8 * w) by
        rw [Int.add_emod_self],
      Int.emod_eq_of_lt (by omega) (by omega)]

theorem iEncPattern_eq {w : Nat} (n : Int) (hw : 0 < w)
    (h1 : -(2 ^ (8 * w - 1)) ≤ n) (h2 : n < 2 ^ (8 * w - 1)) :
    iEncPattern w n = (n + 2 ^ (8 * w - 1)).toNat := by
  have hsplit : 8 * w - 1 + 1 = 8 * w := by omega
  have hk2 : (2 : Nat) ^ (8 * w) = 2 ^ (8 * w - 1) + 2 ^ (8 * w - 1) := by
    have hp := pow_succ (2 : Nat) (8 * w - 1)
    rw [hsplit] at hp
    omega
  have hk2i : ((2 : Int)) ^ (8 * w) = 2 ^ (8 * w - 1) + 2 ^ (8 * w - 1) := by
    have hp := pow_succ (2 : Int) (8 * w - 1)
    rw [hsplit] at hp
    rw [hp]
    ring
  have hcast1 : ((2 ^ (8 * w - 1) : Nat) : Int) = 2 ^ (8 * w - 1) := by push_cast; ring
  have hposi : (0 : Int) < 2 ^ (8 * w - 1) := by positivity
  rcases le_or_lt 0 n with hn | hn
  · have htu : toUnsigned w n = n.toNat := by
      rw [toUnsigned_eq n hw h1 h2, if_pos hn]
    rw [iEncPattern, iXorPattern, htu, xor_two_pow_eq_add (by omega)]
    omega
  · have htu : toUnsigned w n = (n + 2 ^ (8 * w)).toNat := by
      rw [toUnsigned_eq n hw h1 h2, if_neg (by omega)]
    have hge : 2 ^ (8 * w - 1) ≤ (n + 2 ^ (8 * w)).toNat := by omega
    have hlt : (n + 2 ^ (8 * w)).toNat < 2 ^ (8 * w - 1 + 1) := by
      rw [hsplit]
      omega
    rw [iEncPattern, iXorPattern, htu, xor_two_pow_eq_sub hge hlt]
    omega

theorem iDecValue_iEncPattern {w : Nat} (n : Int) (hw : 0 < w)
    (h1 : -(2 ^ (8 * w - 1)) ≤ n) (h2 : n < 2 ^ (8 * w - 1)) :
    iDecValue w (iEncPattern w n) = n := by
  have hsplit : 8 * w - 1 + 1 = 8 * w := by omega
  have hk2 : (2 : Nat) ^ (8 * w) = 2 ^ (8 * w - 1) + 2 ^ (8 * w - 1) := by
    have hp := pow_succ (2 : Nat) (8 * w - 1)
    rw [hsplit] at hp
    omega
  have hk2i : ((2 : Int)) ^ (8 * w) = 2 ^ (8 * w - 1) + 2 ^ (8 * w - 1) := by
    have hp := pow_succ (2 : Int) (8 * w - 1)
    rw [hsplit] at hp
    rw [hp]
    ring
  have hcast1 : ((2 ^ (8 * w - 1) : Nat) : Int) = 2 ^ (8 * w - 1) := by push_cast; ring
  have hcastN : ((2 ^ (8 * w) : Nat) : Int) = 2 ^ (8 * w) := by push_cast; ring
  have hposi : (0 : Int) < 2 ^ (8 * w - 1) := by positivity
  rcases le_or_lt 0 n with hn | hn
  · have htu : toUnsigned w n = n.toNat := by
      rw [toUnsigned_eq n hw h1 h2, if_pos hn]
    rw [iDecValue, iEncPattern, iXorPattern_involutive, toSigned, htu, if_pos (by omega)]
    omega
  · have htu : toUnsigned w n = (n + 2 ^ (8 * w)).toNat := by
      rw [toUnsigned_eq n hw h1 h2, if_neg (by omega)]
    rw [iDecValue, iEncPattern, iXorPattern_involutive, toSigned, htu, if_neg (by omega)]
    omega

theorem fEncPattern_eq {wbits : Nat} (b : Nat) (hw : 0 < wbits) (h : b < 2 ^ wbits) :
    fEncPattern wbits b =
      if b < 2 ^ (wbits - 1) then b + 2 ^ (wbits - 1) else 2 ^ wbits - 1 - b := by
  have hsplit : wbits - 1 + 1 = wbits := by omega
  have hk2 : (2 : Nat) ^ wbits = 2 ^ (wbits - 1) + 2 ^ (wbits - 1) := by
    have hp := pow_succ (2 : Nat) (wbits - 1)
    rw [hsplit] at hp
    omega
  rw [fEncPattern]
  by_cases hc : b < 2 ^ (wbits - 1)
  · rw [if_pos hc, if_pos hc]
    have : (0 : Nat) ||| 2 ^ (wbits - 1) = 2 ^ (wbits - 1) := Nat.zero_or _
    rw [this, xor_two_pow_eq_add hc]
  · rw [if_neg hc, if_neg hc]
    have h1 : (2 : Nat) ^ (wbits - 1) < 2 ^ wbits := by omega
    have : (2 ^ wbits - 1) ||| 2 ^ (wbits - 1) = 2 ^ wbits - 1 := lor_ones h1
    rw [this, xor_two_pow_sub_one h]

theorem fDecPattern_eq {wbits : Nat} (p : Nat) (hw : 0 < wbits) (h : p < 2 ^ wbits) :
    fDecPattern wbits p =
      if p < 2 ^ (wbits - 1) then 2 ^ wbits - 1 - p else p - 2 ^ (wbits - 1) := by
  have hsplit : wbits - 1 + 1 = wbits := by omega
  have hk2 : (2 : Nat) ^ wbits = 2 ^ (wbits - 1) + 2 ^ (wbits - 1) := by
    have hp := pow_succ (2 : Nat) (wbits - 1)
    rw [hsplit] at hp
    omega
  rw [fDecPattern]
  by_cases hc : p < 2 ^ (wbits - 1)
  · have hx : p ^^^ 2 ^ (wbits - 1) = p + 2 ^ (wbits - 1) := xor_two_pow_eq_add hc
    rw [if_pos hc, hx, if_neg (by omega)]
    have h1 : (2 : Nat) ^ (wbits - 1) < 2 ^ wbits := by omega
    rw [lor_ones h1, xor_two_pow_sub_one h]
  · have hx : p ^^^ 2 ^ (wbits - 1) = p - 2 ^ (wbits - 1) :=
      xor_two_pow_eq_sub (by omega) (by omega)
    rw [if_neg hc, hx, if_pos (by omega), Nat.zero_or,
      xor_two_pow_eq_sub (by omega) (by omega)]

theorem fDecPattern_fEncPattern {wbits : Nat} (b : Nat) (hw : 0 < wbits)
    (h : b < 2 ^ wbits) : fDecPattern wbits (fEncPattern wbits b) = b := by
  have hsplit : wbits - 1 + 1 = wbits := by omega
  have hk2 : (2 : Nat) ^ wbits = 2 ^ (wbits - 1) + 2 ^ (wbits - 1) := by
    have hp := pow_succ (2 : Nat) (wbits - 1)
    rw [hsplit] at hp
    omega
  rw [fEncPattern_eq b hw h]
  by_cases hc : b < 2 ^ (wbits - 1)
  · rw [if_pos hc, fDecPattern_eq _ hw (by omega), if_neg (by omega)]
    omega
  · rw [if_neg hc, fDecPattern_eq _ hw (by omega), if_pos (by omega)]
    omega

theorem fEncPattern_fDecPattern {wbits : Nat} (p : Nat) (hw : 0 < wbits)
    (h : p < 2 ^ wbits) : fEncPattern wbits (fDecPattern wbits p) = p := by
  have hsplit : wbits - 1 + 1 = wbits := by omega
  have hk2 : (2 : Nat) ^ wbits = 2 ^ (wbits - 1) + 2 ^ (wbits - 1) := by
    have hp := pow_succ (2 : Nat) (wbits - 1)
    rw [hsplit] at hp
    omega
  rw [fDecPattern_eq p hw h]
  by_cases hc : p < 2 ^ (wbits - 1)
  · rw [if_pos hc, fEncPattern_eq _ hw (by omega), if_neg (by omega)]
    omega
  · rw [if_neg hc, fEncPattern_eq _ hw (by omega), if_pos (by omega)]
    omega

/-! ## UTF-8 codec (the byte level of documents)

The Rust encoder writes strings and chars as their UTF-8 bytes
(`str::as_bytes`, `char::encode_utf8`), and `from_slice` validates input
bytes with `std::str::from_utf8` (src/de.rs line 677).  The codec below is
standard UTF-8 (RFC 3629): one to four bytes per scalar value, shortest form
only, surrogates excluded. -/

/-- The UTF-8 bytes of one scalar value. -/
def utf8EncodeChar (c : Char) : List Nat :=
  let n := c.toNat
  if n < 0x80 then [n]
  else if n < 0x800 then [0xC0 + n / 64, 0x80 + n % 64]
  else if n < 0x10000 then [0xE0 + n / 4096, 0x80 + n / 64 % 64, 0x80 + n % 64]
  else [0xF0 + n / 262144, 0x80 + n / 4096 % 64, 0x80 + n / 64 % 64, 0x80 + n % 64]

/-- One UTF-8 scalar value read from the front of a byte list: the scalar and
the remaining bytes, or `none` when the front is ill-formed (truncated
sequence, overlong form, surrogate, out-of-range lead byte). -/
def utf8DecodeChar? : List Nat → Option (Nat × List Nat)
  | [] => none
  | b0 :: rest =>
    if b0 < 0x80 then some (b0, rest)
    else if b0 < 0xC2 then none
    else if b0 < 0xE0 then
      match rest with
      | b1 :: rest1 =>
        if 0x80 ≤ b1 ∧ b1 < 0xC0 then
          some ((b0 - 0xC0) * 64 + (b1 - 0x80), rest1)
        else none
      | [] => none
    else if b0 < 0xF0 then
      match rest with
      | b1 :: b2 :: rest2 =>
        if (if b0 = 0xE0 then 0xA0 ≤ b1 ∧ b1 < 0xC0
            else if b0 = 0xED then 0x80 ≤ b1 ∧ b1 < 0xA0
            else 0x80 ≤ b1 ∧ b1 < 0xC0) ∧ 0x80 ≤ b2 ∧ b2 < 0xC0 then
          some ((b0 - 0xE0) * 4096 + (b1 - 0x80) * 64 + (b2 - 0x80), rest2)
        else none
      | _ => none
    else if b0 < 0xF5 then
      match rest with
      | b1 :: b2 :: b3 :: rest3 =>
        if (if b0 = 0xF0 then 0x90 ≤ b1 ∧ b1 < 0xC0
            else if b0 = 0xF4 then 0x80 ≤ b1 ∧ b1 < 0x90
            else 0x80 ≤ b1 ∧ b1 < 0xC0) ∧
            (0x80 ≤ b2 ∧ b2 < 0xC0) ∧ (0x80 ≤ b3 ∧ b3 < 0xC0) then
          some ((b0 - 0xF0) * 262144 + (b1 - 0x80) * 4096 +
            (b2 - 0x80) * 64 + (b3 - 0x80), rest3)
        else none
      | _ => none
    else none

set_option maxRecDepth 4000 in
theorem utf8DecodeChar?_length : ∀ {bs : List Nat} {n : Nat} {rest : List Nat},
    utf8DecodeChar? bs = some (n, rest) → rest.length < bs.length := by
  intro bs n rest h
  match bs with
  | [] => cases h
  | b0 :: tail =>
    simp only [utf8DecodeChar?] at h
    repeat' split at h
    all_goals cases h
    all_goals simp
    all_goals omega

/-- UTF-8 validation and decoding (`std::str::from_utf8` followed by reading
the characters): `none` on any ill-formed sequence.  The recursion is bounded
by the input length; since every step consumes at least one byte the bound is
never reached (`utf8DecodeAux_fuel`). -/
def utf8DecodeAux : Nat → List Nat → Option (List Char)
  | _, [] => some []
  | 0, _ :: _ => none
  | fuel + 1, b0 :: rest =>
    match utf8DecodeChar? (b0 :: rest) with
    | none => none
    | some (n, rest1) =>
      (utf8DecodeAux fuel rest1).map fun cs => Char.ofNat n :: cs

/-- Decode a whole byte list as UTF-8. -/
def utf8Decode (bs : List Nat) : Option (List Char) :=
  utf8DecodeAux bs.length bs

theorem utf8DecodeAux_fuel {fuel : Nat} : ∀ {fuel' : Nat} {bs : List Nat},
    bs.length ≤ fuel → bs.length ≤ fuel' →
    utf8DecodeAux fuel bs = utf8DecodeAux fuel' bs := by
  induction fuel with
  | zero =>
    intro fuel' bs h h'
    match bs with
    | [] =>
      match fuel' with
      | 0 => rfl
      | g + 1 => rfl
    | b :: rest => simp at h
  | succ g ih =>
    intro fuel' bs h h'
    match bs with
    | [] =>
      match fuel' with
      | 0 => rfl
      | g' + 1 => rfl
    | b :: rest =>
      match fuel' with
      | 0 => simp at h'
      | g' + 1 =>
        rw [utf8DecodeAux, utf8DecodeAux]
        cases hstep : utf8DecodeChar? (b :: rest) with
        | none => rfl
        | some pair =>
          obtain ⟨n, rest1⟩ := pair
          have hlen := utf8DecodeChar?_length hstep
          simp only [List.length_cons] at hlen h h'
          dsimp only
          rw [ih (by omega) (by omega : rest1.length ≤ g')]

theorem utf8Decode_cons (b0 : Nat) (rest : List Nat) :
    utf8Decode (b0 :: rest) =
      match utf8DecodeChar? (b0 :: rest) with
      | none => none
      | some (n, rest1) => (utf8Decode rest1).map fun cs => Char.ofNat n :: cs := by
  simp only [utf8Decode, List.length_cons]
  rw [utf8DecodeAux]
  cases hstep : utf8DecodeChar? (b0 :: rest) with
  | none => rfl
  | some pair =>
    obtain ⟨n, rest1⟩ := pair
    have hlen := utf8DecodeChar?_length hstep
    simp only [List.length_cons] at hlen
    dsimp only
    rw [utf8DecodeAux_fuel (by omega : rest1.length ≤ rest.length) (le_refl rest1.length)]

/-- The document's bytes: UTF-8 encoding of its characters. -/
def docBytes (cs : List Char) : List Nat :=
  (cs.map utf8EncodeChar).flatten

theorem char_valid (c : Char) :
    c.toNat < 0xd800 ∨ (0xdfff < c.toNat ∧ c.toNat < 0x110000) :=
  c.valid

theorem utf8EncodeChar_ne_nil (c : Char) : utf8EncodeChar c ≠ [] := by
  rw [utf8EncodeChar]
  by_cases h1 : c.toNat < 0x80
  · simp [h1]
  · by_cases h2 : c.toNat < 0x800
    · simp [h1, h2]
    · by_cases h3 : c.toNat < 0x10000
      · simp [h1, h2, h3]
      · simp [h1, h2, h3]

theorem utf8DecodeChar?_enc1 {n : Nat} (h : n < 0x80) (rest : List Nat) :
    utf8DecodeChar? (n :: rest) = some (n, rest) := by
  simp only [utf8DecodeChar?]
  rw [if_pos h]

theorem utf8DecodeChar?_enc2 {n : Nat} (h1 : 0x80 ≤ n) (h2 : n < 0x800)
    (rest : List Nat) :
    utf8DecodeChar? ((0xC0 + n / 64) :: (0x80 + n % 64) :: rest) = some (n, rest) := by
  simp only [utf8DecodeChar?]
  rw [if_neg (by omega), if_neg (by omega), if_pos (by omega)]
  rw [if_pos (show 0x80 ≤ 0x80 + n % 64 ∧ 0x80 + n % 64 < 0xC0 by omega)]
  rw [show (0xC0 + n / 64 - 0xC0) * 64 + (0x80 + n % 64 - 0x80) = n by omega]

theorem utf8DecodeChar?_enc3 {n : Nat} (h1 : 0x800 ≤ n) (h2 : n < 0x10000)
    (hval : n < 0xd800 ∨ 0xdfff < n) (rest : List Nat) :
    utf8DecodeChar? ((0xE0 + n / 4096) :: (0x80 + n / 64 % 64) ::
      (0x80 + n % 64) :: rest) = some (n, rest) := by
  simp only [utf8DecodeChar?]
  rw [if_neg (by omega), if_neg (by omega), if_neg (by omega), if_pos (by omega)]
  have hvalue :
      (0xE0 + n / 4096 - 0xE0) * 4096 + (0x80 + n / 64 % 64 - 0x80) * 64 +
        (0x80 + n % 64 - 0x80) = n := by omega
  split
  · rename_i hE0
    rw [if_pos (by omega), hvalue]
  · rename_i hE0
    split
    · rename_i hED
      rw [if_pos (by omega), hvalue]
    · rename_i hED
      rw [if_pos (by omega), hvalue]

theorem utf8DecodeChar?_enc4 {n : Nat} (h1 : 0x10000 ≤ n) (h2 : n < 0x110000)
    (rest : List Nat) :
    utf8DecodeChar? ((0xF0 + n / 262144) :: (0x80 + n / 4096 % 64) ::
      (0x80 + n / 64 % 64) :: (0x80 + n % 64) :: rest) = some (n, rest) := by
  simp only [utf8DecodeChar?]
  rw [if_neg (by omega), if_neg (by omega), if_neg (by omega), if_neg (by omega),
    if_pos (by omega)]
  have hvalue :
      (0xF0 + n / 262144 - 0xF0) * 262144 + (0x80 + n / 4096 % 64 - 0x80) * 4096 +
        (0x80 + n / 64 % 64 - 0x80) * 64 + (0x80 + n % 64 - 0x80) = n := by omega
  split
  · rename_i hF0
    rw [if_pos (by omega), hvalue]
  · rename_i hF0
    split
    · rename_i hF4
      rw [if_pos (by omega), hvalue]
    · rename_i hF4
      rw [if_pos (by omega), hvalue]

theorem utf8DecodeChar?_utf8EncodeChar (c : Char) (rest : List Nat) :
    utf8DecodeChar? (utf8EncodeChar c ++ rest) = some (c.toNat, rest) := by
  have hval := char_valid c
  rw [utf8EncodeChar]
  by_cases hc1 : c.toNat < 0x80
  · rw [if_pos hc1]
    exact utf8DecodeChar?_enc1 hc1 rest
  · rw [if_neg hc1]
    by_cases hc2 : c.toNat < 0x800
    · rw [if_pos hc2]
      exact utf8DecodeChar?_enc2 (by omega) hc2 rest
    · rw [if_neg hc2]
      by_cases hc3 : c.toNat < 0x10000
      · rw [if_pos hc3]
        exact utf8DecodeChar?_enc3 (by omega) hc3 (by omega) rest
      · rw [if_neg hc3]
        exact utf8DecodeChar?_enc4 (by omega) (by omega) rest

theorem utf8Decode_utf8EncodeChar (c : Char) (rest : List Nat) :
    utf8Decode (utf8EncodeChar c ++ rest) =
      (utf8Decode rest).map fun cs => c :: cs := by
  have hstep := utf8DecodeChar?_utf8EncodeChar c rest
  have hne : utf8EncodeChar c ≠ [] := utf8EncodeChar_ne_nil c
  rcases hE : utf8EncodeChar c with _ | ⟨b0, bs⟩
  · exact absurd hE hne
  rw [hE, List.cons_append] at hstep
  rw [List.cons_append, utf8Decode_cons, hstep]
  dsimp only
  rw [Char.ofNat_toNat]

theorem utf8Decode_nil : utf8Decode [] = some [] := rfl

theorem utf8Decode_docBytes (cs : List Char) : utf8Decode (docBytes cs) = some cs := by
  induction cs with
  | nil =>
    simp only [docBytes, List.map_nil, List.flatten_nil]
    exact utf8Decode_nil
  | cons c tail ih =>
    have : docBytes (c :: tail) = utf8EncodeChar c ++ docBytes tail := by
      simp [docBytes]
    rw [this, utf8Decode_utf8EncodeChar, ih]
    rfl

theorem utf8Decode_ne_nil {b : Nat} {bs : List Nat} {cs : List Char}
    (h : utf8Decode (b :: bs) = some cs) : cs ≠ [] := by
  intro hnil
  subst hnil
  rw [utf8Decode_cons] at h
  split at h
  · cases h
  · simp only [Option.map_eq_some'] at h
    obtain ⟨a, _, ha⟩ := h
    cases ha

/-! ## Errors (src/error.rs) -/

/-- Payload of `Error::Data`: the source stores either the offending
component's text (`Error::Data(component.to_owned())`) or the rendering of
the `hex` crate's error (`Error::Data(format!("{}", error))`, src/de.rs
line 83).  The two constructions are kept apart; rendering the hex error to
text happens outside `src/`. -/
inductive DataPayload where
  | component (text : List Char)
  | hexMessage (e : HexError)
deriving DecidableEq

/-- `Error` (src/error.rs).  `Syntax` is `syntaxError` here (the Rust name is
a reserved word in Lean); `Io` cannot arise for the in-memory entry points
modelled here and is omitted; `other` is `Error::Other` (serde custom
errors). -/
inductive Error where
  | unsupportedType
  | utf8StringDecode
  | data (payload : DataPayload)
  | syntaxError
  | other (msg : List Char)
deriving DecidableEq

/-! ## Values (the Serde data model as reached by src/ser.rs)

Integer widths are in bytes (`u8` is `vUInt 1`, `u128` is `vUInt 16`); float
values are carried as their IEEE bit patterns.  `vUnit` covers both `()` and
unit structs (`serialize_unit` and `serialize_unit_struct` are identical);
`vTuple` covers tuples, tuple structs and structs (whose field names are
never encoded, src/ser.rs line 458).  The last six kinds are the ones the
encoder rejects. -/
inductive Value where
  | vBool (b : Bool)
  | vUInt (w : Nat) (n : Nat)
  | vInt (w : Nat) (n : Int)
  | vF32 (bits : Nat)
  | vF64 (bits : Nat)
  | vChar (c : Char)
  | vStr (s : List Char)
  | vBytes (bs : List Nat)
  | vUnit
  | vUnitVariant (variant : List Char)
  | vNewtype (v : Value)
  | vTuple (vs : List Value)
  | vNone
  | vSome (v : Value)
  | vSeq (vs : List Value)
  | vMap
  | vNewtypeVariant (variant : List Char) (v : Value)
  | vTupleVariant (variant : List Char) (vs : List Value)
  | vStructVariant (variant : List Char) (vs : List Value)

/-! ## Encoder (src/ser.rs) -/

/-- The `Serializer`'s state (src/ser.rs lines 45-50): output written so far
and the `first_part_written` flag.  The deliminator is the default `":"`
installed by `to_vec` and `to_writer`. -/
structure SerState where
  output : List Char
  first_part_written : Bool
deriving DecidableEq

/-- `maybe_write_deliminator` (src/ser.rs lines 84-91). -/
def maybeWriteDeliminator (st : SerState) : SerState :=
  if st.first_part_written then { st with output := st.output ++ [':'] }
  else { st with first_part_written := true }

mutual

/-- The `Serialize` dispatch of src/ser.rs on a value: every scalar kind
writes the deliminator (unless it is the first component) followed by its
component text; `serialize_unit`/`serialize_unit_struct` write nothing;
`serialize_newtype_struct` recurses; tuples/tuple structs/structs serialize
their fields in order; `serialize_none`, `serialize_some`, `serialize_seq`,
`serialize_map`, `serialize_newtype_variant`, `serialize_tuple_variant` and
`serialize_struct_variant` fail with `UnsupportedType` before writing
anything for the value.  The returned state is the writer afterwards (bytes
already written stay written when an error occurs). -/
def serValue : Value → SerState → SerState × Option Error
  | .vBool b, st =>
    let st := maybeWriteDeliminator st
    ({ st with output := st.output ++ (if b then "true".data else "false".data) }, none)
  | .vUInt w n, st =>
    let st := maybeWriteDeliminator st
    ({ st with output := st.output ++ hexEncode (beBytes w n) }, none)
  | .vInt w n, st =>
    let st := maybeWriteDeliminator st
    ({ st with output := st.output ++ hexEncode (beBytes w (iEncPattern w n)) }, none)
  | .vF32 bits, st =>
    let st := maybeWriteDeliminator st
    ({ st with output := st.output ++ hexEncode (beBytes 4 (fEncPattern 32 bits)) }, none)
  | .vF64 bits, st =>
    let st := maybeWriteDeliminator st
    ({ st with output := st.output ++ hexEncode (beBytes 8 (fEncPattern 64 bits)) }, none)
  | .vChar c, st =>
    let st := maybeWriteDeliminator st
    ({ st with output := st.output ++ [c] }, none)
  | .vStr s, st =>
    let st := maybeWriteDeliminator st
    ({ st with output := st.output ++ s }, none)
  | .vBytes bs, st =>
    let st := maybeWriteDeliminator st
    ({ st with output := st.output ++ hexEncode bs }, none)
  | .vUnit, st => (st, none)
  | .vUnitVariant name, st =>
    let st := maybeWriteDeliminator st
    ({ st with output := st.output ++ name }, none)
  | .vNewtype v, st => serValue v st
  | .vTuple vs, st => serFields vs st
  | .vNone, st => (st, some .unsupportedType)
  | .vSome _, st => (st, some .unsupportedType)
  | .vSeq _, st => (st, some .unsupportedType)
  | .vMap, st => (st, some .unsupportedType)
  | .vNewtypeVariant _ _, st => (st, some .unsupportedType)
  | .vTupleVariant _ _, st => (st, some .unsupportedType)
  | .vStructVariant _ _, st => (st, some .unsupportedType)

/-- Field-by-field serialization of composite values
(`serialize_element`/`serialize_field`), stopping at the first error. -/
def serFields : List Value → SerState → SerState × Option Error
  | [], st => (st, none)
  | v :: vs, st =>
    match serValue v st with
    | (st', none) => serFields vs st'
    | (st', some e) => (st', some e)

end

/-- `to_vec` (src/ser.rs lines 495-504): serialize into a fresh buffer with
the default `":"` deliminator; the buffer is returned only on success.  The
Rust buffer is `Vec<u8>`, so the result is given at the byte level. -/
def toVec (v : Value) : Except Error (List Nat) :=
  match serValue v ⟨[], false⟩ with
  | (st, none) => .ok (docBytes st.output)
  | (_, some e) => .error e

/-- The characters of `to_vec`'s output (its buffer is always the UTF-8
encoding of this character list). -/
def toVecChars (v : Value) : Except Error (List Char) :=
  match serValue v ⟨[], false⟩ with
  | (st, none) => .ok st.output
  | (_, some e) => .error e

/-! ## Flattening: the component sequence of a value

`flatten` names the component texts a value contributes, in order; it is the
abstraction the encoder's output is proved equal to.  `none` marks a value
the encoder rejects. -/

mutual

/-- Component texts contributed by a value: scalars one each, `vUnit` none,
newtype wrappers and tuple-like shapes the concatenation of their parts,
unsupported kinds `none`. -/
def flatten : Value → Option (List (List Char))
  | .vBool b => some [if b then "true".data else "false".data]
  | .vUInt w n => some [hexEncode (beBytes w n)]
  | .vInt w n => some [hexEncode (beBytes w (iEncPattern w n))]
  | .vF32 bits => some [hexEncode (beBytes 4 (fEncPattern 32 bits))]
  | .vF64 bits => some [hexEncode (beBytes 8 (fEncPattern 64 bits))]
  | .vChar c => some [[c]]
  | .vStr s => some [s]
  | .vBytes bs => some [hexEncode bs]
  | .vUnit => some []
  | .vUnitVariant name => some [name]
  | .vNewtype v => flatten v
  | .vTuple vs => flattenList vs
  | .vNone => none
  | .vSome _ => none
  | .vSeq _ => none
  | .vMap => none
  | .vNewtypeVariant _ _ => none
  | .vTupleVariant _ _ => none
  | .vStructVariant _ _ => none

/-- Concatenation of the component sequences of a list of values. -/
def flattenList : List Value → Option (List (List Char))
  | [] => some []
  | v :: vs =>
    match flatten v, flattenList vs with
    | some a, some b => some (a ++ b)
    | _, _ => none

end

/-- The text the encoder emits for a component sequence, starting from a
writer whose `first_part_written` flag is `first`: each component is preceded
by the deliminator except the very first of the document. -/
def emitComps (first : Bool) : List (List Char) → List Char
  | [] => []
  | c :: cs => (if first then [':'] else []) ++ c ++ emitComps true cs

/-- The writer state after emitting a component sequence. -/
def appendComps (st : SerState) (comps : List (List Char)) : SerState :=
  ⟨st.output ++ emitComps st.first_part_written comps,
    st.first_part_written || !comps.isEmpty⟩

theorem emitComps_append (a b : List (List Char)) (first : Bool) :
    emitComps first (a ++ b) =
      emitComps first a ++ emitComps (first || !a.isEmpty) b := by
  induction a generalizing first with
  | nil => simp [emitComps]
  | cons c cs ih =>
    have h1 : emitComps true (cs ++ b) = emitComps true cs ++ emitComps true b := by
      rw [ih true, Bool.true_or]
    simp only [List.cons_append, List.append_eq, emitComps, h1, List.isEmpty_cons,
      Bool.not_false, Bool.or_true, List.append_assoc]

theorem appendComps_append (st : SerState) (a b : List (List Char)) :
    appendComps (appendComps st a) b = appendComps st (a ++ b) := by
  cases a <;> cases b <;>
    simp [appendComps, emitComps_append, List.append_assoc, emitComps]

theorem serValue_scalar_eq (st : SerState) (text : List Char) :
    SerState.mk ((maybeWriteDeliminator st).output ++ text)
        (maybeWriteDeliminator st).first_part_written =
      appendComps st [text] := by
  cases h : st.first_part_written <;>
    simp [maybeWriteDeliminator, appendComps, emitComps, h]

mutual

theorem serValue_flatten_ok : ∀ (v : Value) (st : SerState) (comps : List (List Char)),
    flatten v = some comps → serValue v st = (appendComps st comps, none)
  | .vBool b, st, comps, h => by
    rw [flatten] at h
    cases h
    rw [serValue, serValue_scalar_eq]
  | .vUInt w n, st, comps, h => by
    rw [flatten] at h
    cases h
    rw [serValue, serValue_scalar_eq]
  | .vInt w n, st, comps, h => by
    rw [flatten] at h
    cases h
    rw [serValue, serValue_scalar_eq]
  | .vF32 bits, st, comps, h => by
    rw [flatten] at h
    cases h
    rw [serValue, serValue_scalar_eq]
  | .vF64 bits, st, comps, h => by
    rw [flatten] at h
    cases h
    rw [serValue, serValue_scalar_eq]
  | .vChar c, st, comps, h => by
    rw [flatten] at h
    cases h
    rw [serValue, serValue_scalar_eq]
  | .vStr s, st, comps, h => by
    rw [flatten] at h
    cases h
    rw [serValue, serValue_scalar_eq]
  | .vBytes bs, st, comps, h => by
    rw [flatten] at h
    cases h
    rw [serValue, serValue_scalar_eq]
  | .vUnit, st, comps, h => by
    rw [flatten] at h
    cases h
    rw [serValue]
    simp [appendComps, emitComps]
  | .vUnitVariant name, st, comps, h => by
    rw [flatten] at h
    cases h
    rw [serValue, serValue_scalar_eq]
  | .vNewtype v, st, comps, h => by
    rw [flatten] at h
    rw [serValue]
    exact serValue_flatten_ok v st comps h
  | .vTuple vs, st, comps, h => by
    rw [flatten] at h
    rw [serValue]
    exact serFields_flatten_ok vs st comps h

theorem serFields_flatten_ok : ∀ (vs : List Value) (st : SerState)
    (comps : List (List Char)),
    flattenList vs = some comps → serFields vs st = (appendComps st comps, none)
  | [], st, comps, h => by
    rw [flattenList] at h
    cases h
    rw [serFields]
    simp [appendComps, emitComps]
  | v :: vs, st, comps, h => by
    rw [flattenList] at h
    cases hv : flatten v with
    | none => rw [hv] at h; cases h
    | some a =>
      cases hvs : flattenList vs with
      | none => rw [hv, hvs] at h; cases h
      | some b =>
        rw [hv, hvs] at h
        cases h
        rw [serFields, serValue_flatten_ok v st a hv]
        dsimp only
        rw [serFields_flatten_ok vs _ b hvs, appendComps_append]

end

mutual

theorem serValue_flatten_err : ∀ (v : Value) (st : SerState),
    flatten v = none → (serValue v st).2 = some .unsupportedType
  | .vNewtype v, st, h => by
    rw [flatten] at h
    rw [serValue]
    exact serValue_flatten_err v st h
  | .vTuple vs, st, h => by
    rw [flatten] at h
    rw [serValue]
    exact serFields_flatten_err vs st h
  | .vNone, st, h => by rw [serValue]
  | .vSome _, st, h => by rw [serValue]
  | .vSeq _, st, h => by rw [serValue]
  | .vMap, st, h => by rw [serValue]
  | .vNewtypeVariant _ _, st, h => by rw [serValue]
  | .vTupleVariant _ _, st, h => by rw [serValue]
  | .vStructVariant _ _, st, h => by rw [serValue]
  | .vBool b, st, h => by rw [flatten] at h; cases h
  | .vUInt w n, st, h => by rw [flatten] at h; cases h
  | .vInt w n, st, h => by rw [flatten] at h; cases h
  | .vF32 bits, st, h => by rw [flatten] at h; cases h
  | .vF64 bits, st, h => by rw [flatten] at h; cases h
  | .vChar c, st, h => by rw [flatten] at h; cases h
  | .vStr s, st, h => by rw [flatten] at h; cases h
  | .vBytes bs, st, h => by rw [flatten] at h; cases h
  | .vUnit, st, h => by rw [flatten] at h; cases h
  | .vUnitVariant name, st, h => by rw [flatten] at h; cases h

theorem serFields_flatten_err : ∀ (vs : List Value) (st : SerState),
    flattenList vs = none → (serFields vs st).2 = some .unsupportedType
  | [], st, h => by rw [flattenList] at h; cases h
  | v :: vs, st, h => by
    rw [flattenList] at h
    rw [serFields]
    cases hv : flatten v with
    | none =>
      have herr := serValue_flatten_err v st hv
      rcases hsv : serValue v st with ⟨st', oe⟩
      rw [hsv] at herr
      dsimp only at herr
      subst herr
      rfl
    | some a =>
      cases hvs : flattenList vs with
      | none =>
        rw [serValue_flatten_ok v st a hv]
        exact serFields_flatten_err vs _ hvs
      | some b => rw [hv, hvs] at h; cases h

end

/-! ## Decoder (src/de.rs)

The decoder is driven by the requested target shape.  `Shape` names the
`deserialize_*` entry point a caller's type reaches: scalars, `unit`/unit
structs, enums (with their unit-variant name list), newtype structs, and the
fixed-arity composites.  `sOption`, `sSeq`, `sMap` are the requested shapes
`deserialize_option`, `deserialize_seq` and `deserialize_map` reject with
`UnsupportedType` (src/de.rs lines 339-344, 377-382, 403-408).  Target
shapes for enums with payload-carrying variants are not modelled (their
rejection happens in the `VariantAccess` impl, src/de.rs lines 513-536, and
no claim reaches it). -/
inductive Shape where
  | sBool
  | sUInt (w : Nat)
  | sInt (w : Nat)
  | sF32
  | sF64
  | sChar
  | sStr
  | sBytes
  | sUnit
  | sEnum (variants : List (List Char))
  | sNewtype (s : Shape)
  | sTuple (ss : List Shape)
  | sOption
  | sSeq
  | sMap

/-- `SliceReader` (src/de.rs lines 649-700): the input bytes and the
component queue, `none` until the split has been materialized. -/
structure ReaderState where
  input : List Nat
  components : Option (List (List Char))

/-- The component split of the decoded text (src/de.rs lines 681-685): a
wholly empty input yields no components; otherwise the text is split on the
deliminator, keeping empty substrings. -/
def splitDoc (chars : List Char) : List (List Char) :=
  if chars = [] then [] else chars.splitOn ':'

/-- `SliceReader::preload_components` (src/de.rs lines 675-691): decode the
input as UTF-8 and split it, once; idempotent afterwards. -/
def preloadComponents (r : ReaderState) : Except Error ReaderState :=
  match r.components with
  | some _ => .ok r
  | none =>
    match utf8Decode r.input with
    | none => .error .utf8StringDecode
    | some chars => .ok { r with components := some (splitDoc chars) }

/-- `SliceReader::next_component` (src/de.rs lines 693-699): preload, then
pop the front of the queue. -/
def nextComponent (r : ReaderState) : Except Error (Option (List Char) × ReaderState) :=
  match preloadComponents r with
  | .error e => .error e
  | .ok r' =>
    match r'.components with
    | some (c :: cs) => .ok (some c, { r' with components := some cs })
    | _ => .ok (none, r')

/-- `Deserializer::next_component_decode_hex` (src/de.rs lines 77-86): read
one component (`Syntax` when none remains) and hex-decode it; a hex failure
becomes `Error::Data` carrying the hex error's message. -/
def nextComponentDecodeHex (r : ReaderState) :
    Except Error (List Char × List Nat × ReaderState) :=
  match nextComponent r with
  | .error e => .error e
  | .ok (none, _) => .error .syntaxError
  | .ok (some c, r') =>
    match hexDecode c with
    | .error e => .error (.data (.hexMessage e))
    | .ok bs => .ok (c, bs, r')

mutual

/-- The `Deserializer` dispatch of src/de.rs, driven by the target shape.
Scalar shapes read one component and run the inverse transforms, failing with
`Error::Data` when the text does not parse; a numeric shape whose decoded
byte count mismatches its width fails with `Error::Data(component)`
(`try_into`, e.g. src/de.rs lines 135-137); `deserialize_unit` preloads and
consumes nothing; newtype structs recurse; tuples/tuple structs/structs read
their fields in order against the shared reader.

For `sEnum`, reading the identifier component is src code
(`deserialize_enum` → `variant_seed` → `deserialize_str`, src/de.rs lines
422-432 and 496-503); matching it against the variant names happens in the
serde-derived visitor outside this repository and is modelled from the spec:
"failing with a data error if the component's text does not parse as the
requested kind (... unmatched name for `UnitVariant`)" (section 4.4). -/
def decodeShape : Shape → ReaderState → Except Error (Value × ReaderState)
  | .sBool, r =>
    match nextComponent r with
    | .error e => .error e
    | .ok (none, _) => .error .syntaxError
    | .ok (some c, r') =>
      if c = "true".data then .ok (.vBool true, r')
      else if c = "false".data then .ok (.vBool false, r')
      else .error (.data (.component c))
  | .sUInt w, r =>
    match nextComponentDecodeHex r with
    | .error e => .error e
    | .ok (c, bs, r') =>
      if bs.length = w then .ok (.vUInt w (beToNat bs), r')
      else .error (.data (.component c))
  | .sInt w, r =>
    match nextComponentDecodeHex r with
    | .error e => .error e
    | .ok (c, bs, r') =>
      if bs.length = w then .ok (.vInt w (iDecValue w (beToNat bs)), r')
      else .error (.data (.component c))
  | .sF32, r =>
    match nextComponentDecodeHex r with
    | .error e => .error e
    | .ok (c, bs, r') =>
      if bs.length = 4 then .ok (.vF32 (fDecPattern 32 (beToNat bs)), r')
      else .error (.data (.component c))
  | .sF64, r =>
    match nextComponentDecodeHex r with
    | .error e => .error e
    | .ok (c, bs, r') =>
      if bs.length = 8 then .ok (.vF64 (fDecPattern 64 (beToNat bs)), r')
      else .error (.data (.component c))
  | .sChar, r =>
    match nextComponent r with
    | .error e => .error e
    | .ok (none, _) => .error .syntaxError
    | .ok (some c, r') =>
      match c with
      | [ch] => .ok (.vChar ch, r')
      | _ => .error (.data (.component c))
  | .sStr, r =>
    match nextComponent r with
    | .error e => .error e
    | .ok (none, _) => .error .syntaxError
    | .ok (some c, r') => .ok (.vStr c, r')
  | .sBytes, r =>
    match nextComponentDecodeHex r with
    | .error e => .error e
    | .ok (_, bs, r') => .ok (.vBytes bs, r')
  | .sUnit, r =>
    match preloadComponents r with
    | .error e => .error e
    | .ok r' => .ok (.vUnit, r')
  | .sEnum variants, r =>
    match nextComponent r with
    | .error e => .error e
    | .ok (none, _) => .error .syntaxError
    | .ok (some c, r') =>
      if c ∈ variants then .ok (.vUnitVariant c, r')
      else .error (.data (.component c))
  | .sNewtype s, r =>
    match decodeShape s r with
    | .error e => .error e
    | .ok (v, r') => .ok (.vNewtype v, r')
  | .sTuple ss, r =>
    match decodeFields ss r with
    | .error e => .error e
    | .ok (vs, r') => .ok (.vTuple vs, r')
  | .sOption, _ => .error .unsupportedType
  | .sSeq, _ => .error .unsupportedType
  | .sMap, _ => .error .unsupportedType

/-- Field-by-field decoding against the shared reader
(`CollectionDeserializer`, src/de.rs lines 453-472). -/
def decodeFields : List Shape → ReaderState → Except Error (List Value × ReaderState)
  | [], r => .ok ([], r)
  | s :: ss, r =>
    match decodeShape s r with
    | .error e => .error e
    | .ok (v, r') =>
      match decodeFields ss r' with
      | .error e => .error e
      | .ok (vs, r'') => .ok (v :: vs, r'')

end

/-- `from_slice` (src/de.rs lines 703-712): decode the requested shape from
the byte slice, then run the mandatory `end()` check (src/de.rs lines 64-70),
which fails with `Error::Syntax` when a component remains. -/
def fromSlice (shape : Shape) (input : List Nat) : Except Error Value :=
  match decodeShape shape ⟨input, none⟩ with
  | .error e => .error e
  | .ok (v, r') =>
    match nextComponent r' with
    | .error e => .error e
    | .ok (some _, _) => .error .syntaxError
    | .ok (none, _) => .ok v

mutual

/-- The target shape of a value: the shape a caller uses to get this value
back.  A unit variant's shape lists just that variant's name (an enum
declaring it); values the encoder rejects are given the rejected shapes
(`sOption`/`sSeq`/`sMap`) where one exists, and payload-carrying variants,
whose target shapes are not modelled, fall back to `sMap`. -/
def shapeOf : Value → Shape
  | .vBool _ => .sBool
  | .vUInt w _ => .sUInt w
  | .vInt w _ => .sInt w
  | .vF32 _ => .sF32
  | .vF64 _ => .sF64
  | .vChar _ => .sChar
  | .vStr _ => .sStr
  | .vBytes _ => .sBytes
  | .vUnit => .sUnit
  | .vUnitVariant name => .sEnum [name]
  | .vNewtype v => .sNewtype (shapeOf v)
  | .vTuple vs => .sTuple (shapeOfList vs)
  | .vNone => .sOption
  | .vSome _ => .sOption
  | .vSeq _ => .sSeq
  | .vMap => .sMap
  | .vNewtypeVariant _ _ => .sMap
  | .vTupleVariant _ _ => .sMap
  | .vStructVariant _ _ => .sMap

def shapeOfList : List Value → List Shape
  | [] => []
  | v :: vs => shapeOf v :: shapeOfList vs

end

mutual

/-- Well-formed supported values: machine integers within their declared
width (widths the Rust types have: 1, 2, 4, 8 or 16 bytes), float bit
patterns within range, blob bytes below 256, and no text component that
contains the deliminator character `:` (strings, chars and variant names).
Values of the rejected kinds are not well-formed. -/
def wfValue : Value → Prop
  | .vBool _ => True
  | .vUInt w n => (w = 1 ∨ w = 2 ∨ w = 4 ∨ w = 8 ∨ w = 16) ∧ n < 2 ^ (8 * w)
  | .vInt w n =>
    (w = 1 ∨ w = 2 ∨ w = 4 ∨ w = 8 ∨ w = 16) ∧
      -(2 ^ (8 * w - 1)) ≤ n ∧ n < 2 ^ (8 * w - 1)
  | .vF32 bits => bits < 2 ^ 32
  | .vF64 bits => bits < 2 ^ 64
  | .vChar c => c ≠ ':'
  | .vStr s => ':' ∉ s
  | .vBytes bs => ∀ b ∈ bs, b < 256
  | .vUnit => True
  | .vUnitVariant name => ':' ∉ name
  | .vNewtype v => wfValue v
  | .vTuple vs => wfValueList vs
  | .vNone => False
  | .vSome _ => False
  | .vSeq _ => False
  | .vMap => False
  | .vNewtypeVariant _ _ => False
  | .vTupleVariant _ _ => False
  | .vStructVariant _ _ => False

def wfValueList : List Value → Prop
  | [] => True
  | v :: vs => wfValue v ∧ wfValueList vs

end

/-! ## Component character facts -/

theorem mem_hexEncode {c : Char} {bs : List Nat} (hlt : ∀ b ∈ bs, b < 256)
    (h : c ∈ hexEncode bs) : ∃ d, d < 16 ∧ c = hexDigitChar d := by
  induction bs with
  | nil => simp [hexEncode] at h
  | cons b tail ih =>
    have hsplit : hexEncode (b :: tail) = hexEncodeByte b ++ hexEncode tail := by
      simp [hexEncode]
    rw [hsplit, List.mem_append] at h
    rcases h with h | h
    · have hb : b < 256 := hlt b (List.mem_cons_self _ _)
      simp only [hexEncodeByte, List.mem_cons, List.mem_singleton,
        List.not_mem_nil, or_false] at h
      rcases h with h | h
      · exact ⟨b / 16, Nat.div_lt_of_lt_mul (by omega), h⟩
      · exact ⟨b % 16, Nat.mod_lt _ (by norm_num), h⟩
    · exact ih (fun x hx => hlt x (List.mem_cons_of_mem _ hx)) h

theorem hexDigitChar_ne_colon : ∀ d < 16, hexDigitChar d ≠ ':' := by
  decide

theorem hexEncode_no_colon {bs : List Nat} (hlt : ∀ b ∈ bs, b < 256) :
    ':' ∉ hexEncode bs := by
  intro hmem
  obtain ⟨d, hd, hc⟩ := mem_hexEncode hlt hmem
  exact hexDigitChar_ne_colon d hd hc.symm

mutual

theorem flatten_no_colon : ∀ (v : Value) (comps : List (List Char)),
    wfValue v → flatten v = some comps → ∀ comp ∈ comps, ':' ∉ comp
  | .vBool b, comps, hwf, hfl => by
    rw [flatten] at hfl
    cases hfl
    intro comp hc
    rw [List.mem_singleton] at hc
    subst hc
    cases b <;> decide
  | .vUInt w n, comps, hwf, hfl => by
    rw [flatten] at hfl
    cases hfl
    intro comp hc
    rw [List.mem_singleton] at hc
    subst hc
    exact hexEncode_no_colon (beBytes_lt w n)
  | .vInt w n, comps, hwf, hfl => by
    rw [flatten] at hfl
    cases hfl
    intro comp hc
    rw [List.mem_singleton] at hc
    subst hc
    exact hexEncode_no_colon (beBytes_lt w _)
  | .vF32 bits, comps, hwf, hfl => by
    rw [flatten] at hfl
    cases hfl
    intro comp hc
    rw [List.mem_singleton] at hc
    subst hc
    exact hexEncode_no_colon (beBytes_lt 4 _)
  | .vF64 bits, comps, hwf, hfl => by
    rw [flatten] at hfl
    cases hfl
    intro comp hc
    rw [List.mem_singleton] at hc
    subst hc
    exact hexEncode_no_colon (beBytes_lt 8 _)
  | .vChar c, comps, hwf, hfl => by
    rw [flatten] at hfl
    cases hfl
    intro comp hc
    rw [List.mem_singleton] at hc
    subst hc
    rw [wfValue] at hwf
    simp [List.mem_singleton]
    intro heq
    exact hwf heq.symm
  | .vStr s, comps, hwf, hfl => by
    rw [flatten] at hfl
    cases hfl
    intro comp hc
    rw [List.mem_singleton] at hc
    subst hc
    rw [wfValue] at hwf
    exact hwf
  | .vBytes bs, comps, hwf, hfl => by
    rw [flatten] at hfl
    cases hfl
    intro comp hc
    rw [List.mem_singleton] at hc
    subst hc
    rw [wfValue] at hwf
    exact hexEncode_no_colon hwf
  | .vUnit, comps, hwf, hfl => by
    rw [flatten] at hfl
    cases hfl
    intro comp hc
    simp at hc
  | .vUnitVariant name, comps, hwf, hfl => by
    rw [flatten] at hfl
    cases hfl
    intro comp hc
    rw [List.mem_singleton] at hc
    subst hc
    rw [wfValue] at hwf
    exact hwf
  | .vNewtype v, comps, hwf, hfl => by
    rw [flatten] at hfl
    rw [wfValue] at hwf
    exact flatten_no_colon v comps hwf hfl
  | .vTuple vs, comps, hwf, hfl => by
    rw [flatten] at hfl
    rw [wfValue] at hwf
    exact flattenList_no_colon vs comps hwf hfl
  | .vNone, comps, hwf, hfl => absurd hwf (by rw [wfValue]; exact not_false)
  | .vSome _, comps, hwf, hfl => absurd hwf (by rw [wfValue]; exact not_false)
  | .vSeq _, comps, hwf, hfl => absurd hwf (by rw [wfValue]; exact not_false)
  | .vMap, comps, hwf, hfl => absurd hwf (by rw [wfValue]; exact not_false)
  | .vNewtypeVariant _ _, comps, hwf, hfl => absurd hwf (by rw [wfValue]; exact not_false)
  | .vTupleVariant _ _, comps, hwf, hfl => absurd hwf (by rw [wfValue]; exact not_false)
  | .vStructVariant _ _, comps, hwf, hfl => absurd hwf (by rw [wfValue]; exact not_false)

theorem flattenList_no_colon : ∀ (vs : List Value) (comps : List (List Char)),
    wfValueList vs → flattenList vs = some comps → ∀ comp ∈ comps, ':' ∉ comp
  | [], comps, hwf, hfl => by
    rw [flattenList] at hfl
    cases hfl
    intro comp hc
    simp at hc
  | v :: vs, comps, hwf, hfl => by
    rw [flattenList] at hfl
    rw [wfValueList] at hwf
    cases hv : flatten v with
    | none => rw [hv] at hfl; cases hfl
    | some a =>
      cases hvs : flattenList vs with
      | none => rw [hv, hvs] at hfl; cases hfl
      | some b =>
        rw [hv, hvs] at hfl
        cases hfl
        intro comp hc
        rw [List.mem_append] at hc
        rcases hc with hc | hc
        · exact flatten_no_colon v a hwf.1 hv comp hc
        · exact flattenList_no_colon vs b hwf.2 hvs comp hc

end

mutual

theorem flatten_isSome : ∀ (v : Value), wfValue v → ∃ comps, flatten v = some comps
  | .vBool b, _ => ⟨_, by rw [flatten]⟩
  | .vUInt w n, _ => ⟨_, by rw [flatten]⟩
  | .vInt w n, _ => ⟨_, by rw [flatten]⟩
  | .vF32 bits, _ => ⟨_, by rw [flatten]⟩
  | .vF64 bits, _ => ⟨_, by rw [flatten]⟩
  | .vChar c, _ => ⟨_, by rw [flatten]⟩
  | .vStr s, _ => ⟨_, by rw [flatten]⟩
  | .vBytes bs, _ => ⟨_, by rw [flatten]⟩
  | .vUnit, _ => ⟨_, by rw [flatten]⟩
  | .vUnitVariant name, _ => ⟨_, by rw [flatten]⟩
  | .vNewtype v, hwf => by
    rw [wfValue] at hwf
    obtain ⟨comps, hc⟩ := flatten_isSome v hwf
    exact ⟨comps, by rw [flatten]; exact hc⟩
  | .vTuple vs, hwf => by
    rw [wfValue] at hwf
    obtain ⟨comps, hc⟩ := flattenList_isSome vs hwf
    exact ⟨comps, by rw [flatten]; exact hc⟩
  | .vNone, hwf => absurd hwf (by rw [wfValue]; exact not_false)
  | .vSome _, hwf => absurd hwf (by rw [wfValue]; exact not_false)
  | .vSeq _, hwf => absurd hwf (by rw [wfValue]; exact not_false)
  | .vMap, hwf => absurd hwf (by rw [wfValue]; exact not_false)
  | .vNewtypeVariant _ _, hwf => absurd hwf (by rw [wfValue]; exact not_false)
  | .vTupleVariant _ _, hwf => absurd hwf (by rw [wfValue]; exact not_false)
  | .vStructVariant _ _, hwf => absurd hwf (by rw [wfValue]; exact not_false)

theorem flattenList_isSome : ∀ (vs : List Value), wfValueList vs →
    ∃ comps, flattenList vs = some comps
  | [], _ => ⟨[], by rw [flattenList]⟩
  | v :: vs, hwf => by
    rw [wfValueList] at hwf
    obtain ⟨a, ha⟩ := flatten_isSome v hwf.1
    obtain ⟨b, hb⟩ := flattenList_isSome vs hwf.2
    exact ⟨a ++ b, by rw [flattenList, ha, hb]⟩

end

/-! ## The split is inverse to the emit -/

theorem emitComps_true_eq (c : List Char) (cs : List (List Char)) :
    emitComps true (c :: cs) = ':' :: emitComps false (c :: cs) := by
  simp [emitComps]

theorem splitOn_emitComps : ∀ (comps : List (List Char)), comps ≠ [] →
    (∀ c ∈ comps, ':' ∉ c) → (emitComps false comps).splitOn ':' = comps
  | [], h, _ => absurd rfl h
  | [c], _, hnc => by
    have hc : ∀ x ∈ c, ¬(x == ':') = true := by
      intro x hx
      simp only [beq_iff_eq]
      intro heq
      exact hnc c (List.mem_singleton_self c) (heq ▸ hx)
    simp only [emitComps, if_neg (Bool.false_ne_true), List.nil_append, List.append_nil]
    exact List.splitOnP_eq_single _ _ hc
  | c :: c2 :: cs, _, hnc => by
    have hc : ∀ x ∈ c, ¬(x == ':') = true := by
      intro x hx
      simp only [beq_iff_eq]
      intro heq
      exact hnc c (List.mem_cons_self _ _) (heq ▸ hx)
    have hrest : (emitComps false (c2 :: cs)).splitOn ':' = c2 :: cs :=
      splitOn_emitComps (c2 :: cs) (by simp)
        (fun x hx => hnc x (List.mem_cons_of_mem _ hx))
    have hemit : emitComps false (c :: c2 :: cs) =
        c ++ ':' :: emitComps false (c2 :: cs) := by
      rw [emitComps, emitComps_true_eq]
      simp
    rw [hemit]
    have := List.splitOnP_first _ _ hc ':' (by simp) (emitComps false (c2 :: cs))
    rw [List.splitOn, this, ← List.splitOn, hrest]

theorem emitComps_ne_nil : ∀ (comps : List (List Char)), comps ≠ [] →
    comps ≠ [[]] → emitComps false comps ≠ []
  | [], h, _ => absurd rfl h
  | [c], _, h2 => by
    simp only [emitComps, if_neg (Bool.false_ne_true), List.nil_append, List.append_nil]
    intro hc
    exact h2 (by rw [hc])
  | c :: c2 :: cs, _, _ => by
    have hemit : emitComps false (c :: c2 :: cs) =
        c ++ ':' :: emitComps false (c2 :: cs) := by
      rw [emitComps, emitComps_true_eq]
      simp
    rw [hemit]
    intro hc
    cases c with
    | nil => cases hc
    | cons x xs => cases hc

theorem splitDoc_emitComps (comps : List (List Char)) (h1 : comps ≠ [])
    (h2 : comps ≠ [[]]) (hnc : ∀ c ∈ comps, ':' ∉ c) :
    splitDoc (emitComps false comps) = comps := by
  rw [splitDoc, if_neg (emitComps_ne_nil comps h1 h2)]
  exact splitOn_emitComps comps h1 hnc

theorem splitDoc_nil_of_emitComps_nil : splitDoc (emitComps false []) = [] := by
  rfl

/-! ## Decoding inverts encoding, component by component -/

theorem iEncPattern_lt {w : Nat} (n : Int) (hw : 0 < w)
    (h1 : -(2 ^ (8 * w - 1)) ≤ n) (h2 : n < 2 ^ (8 * w - 1)) :
    iEncPattern w n < 2 ^ (8 * w) := by
  have hsplit : 8 * w - 1 + 1 = 8 * w := by omega
  have hk2 : (2 : Nat) ^ (8 * w) = 2 ^ (8 * w - 1) + 2 ^ (8 * w - 1) := by
    have hp := pow_succ (2 : Nat) (8 * w - 1)
    rw [hsplit] at hp
    omega
  have hcast1 : ((2 ^ (8 * w - 1) : Nat) : Int) = 2 ^ (8 * w - 1) := by push_cast; ring
  rw [iEncPattern_eq n hw h1 h2]
  omega

theorem fEncPattern_lt {wbits : Nat} (b : Nat) (hw : 0 < wbits) (h : b < 2 ^ wbits) :
    fEncPattern wbits b < 2 ^ wbits := by
  have hsplit : wbits - 1 + 1 = wbits := by omega
  have hk2 : (2 : Nat) ^ wbits = 2 ^ (wbits - 1) + 2 ^ (wbits - 1) := by
    have hp := pow_succ (2 : Nat) (wbits - 1)
    rw [hsplit] at hp
    omega
  rw [fEncPattern_eq b hw h]
  split <;> omega

theorem preload_preloaded (input : List Nat) (q : List (List Char)) :
    preloadComponents ⟨input, some q⟩ = .ok ⟨input, some q⟩ := rfl

theorem nextComponent_cons (input : List Nat) (c : List Char) (cs : List (List Char)) :
    nextComponent ⟨input, some (c :: cs)⟩ = .ok (some c, ⟨input, some cs⟩) := rfl

theorem nextComponent_nil (input : List Nat) :
    nextComponent ⟨input, some []⟩ = .ok (none, ⟨input, some []⟩) := rfl

theorem nextComponentDecodeHex_cons {c : List Char} {bs : List Nat}
    (input : List Nat) (cs : List (List Char)) (hdec : hexDecode c = .ok bs) :
    nextComponentDecodeHex ⟨input, some (c :: cs)⟩ = .ok (c, bs, ⟨input, some cs⟩) := by
  rw [nextComponentDecodeHex, nextComponent_cons]
  dsimp only
  rw [hdec]

mutual

theorem decodeShape_flatten : ∀ (v : Value) (input : List Nat)
    (comps rest : List (List Char)), wfValue v → flatten v = some comps →
    decodeShape (shapeOf v) ⟨input, some (comps ++ rest)⟩ =
      .ok (v, ⟨input, some rest⟩)
  | .vBool b, input, comps, rest, hwf, hfl => by
    rw [flatten] at hfl
    cases hfl
    cases b
    · rw [shapeOf, List.singleton_append, decodeShape, nextComponent_cons]
      dsimp only
      rw [if_neg (by decide), if_pos (by decide)]
    · rw [shapeOf, List.singleton_append, decodeShape, nextComponent_cons]
      dsimp only
      rw [if_pos (by decide)]
  | .vUInt w n, input, comps, rest, hwf, hfl => by
    rw [flatten] at hfl
    cases hfl
    rw [wfValue] at hwf
    rw [shapeOf, List.singleton_append, decodeShape,
      nextComponentDecodeHex_cons input rest (hexDecode_hexEncode _ (beBytes_lt w n))]
    dsimp only
    rw [if_pos (length_beBytes w n), beToNat_beBytes w n hwf.2]
  | .vInt w n, input, comps, rest, hwf, hfl => by
    rw [flatten] at hfl
    cases hfl
    rw [wfValue] at hwf
    have hw : 0 < w := by rcases hwf.1 with h | h | h | h | h <;> omega
    rw [shapeOf, List.singleton_append, decodeShape,
      nextComponentDecodeHex_cons input rest (hexDecode_hexEncode _ (beBytes_lt w _))]
    dsimp only
    rw [if_pos (length_beBytes w _),
      beToNat_beBytes w _ (iEncPattern_lt n hw hwf.2.1 hwf.2.2),
      iDecValue_iEncPattern n hw hwf.2.1 hwf.2.2]
  | .vF32 bits, input, comps, rest, hwf, hfl => by
    rw [flatten] at hfl
    cases hfl
    rw [wfValue] at hwf
    have hlt : fEncPattern 32 bits < 2 ^ (8 * 4) := by
      have := fEncPattern_lt bits (by norm_num) hwf
      omega
    rw [shapeOf, List.singleton_append, decodeShape,
      nextComponentDecodeHex_cons input rest (hexDecode_hexEncode _ (beBytes_lt 4 _))]
    dsimp only
    rw [if_pos (length_beBytes 4 _), beToNat_beBytes 4 _ hlt,
      fDecPattern_fEncPattern bits (by norm_num) hwf]
  | .vF64 bits, input, comps, rest, hwf, hfl => by
    rw [flatten] at hfl
    cases hfl
    rw [wfValue] at hwf
    have hlt : fEncPattern 64 bits < 2 ^ (8 * 8) := by
      have := fEncPattern_lt bits (by norm_num) hwf
      omega
    rw [shapeOf, List.singleton_append, decodeShape,
      nextComponentDecodeHex_cons input rest (hexDecode_hexEncode _ (beBytes_lt 8 _))]
    dsimp only
    rw [if_pos (length_beBytes 8 _), beToNat_beBytes 8 _ hlt,
      fDecPattern_fEncPattern bits (by norm_num) hwf]
  | .vChar c, input, comps, rest, hwf, hfl => by
    rw [flatten] at hfl
    cases hfl
    rw [shapeOf, List.singleton_append, decodeShape, nextComponent_cons]
  | .vStr s, input, comps, rest, hwf, hfl => by
    rw [flatten] at hfl
    cases hfl
    rw [shapeOf, List.singleton_append, decodeShape, nextComponent_cons]
  | .vBytes bs, input, comps, rest, hwf, hfl => by
    rw [flatten] at hfl
    cases hfl
    rw [wfValue] at hwf
    rw [shapeOf, List.singleton_append, decodeShape,
      nextComponentDecodeHex_cons input rest (hexDecode_hexEncode _ hwf)]
  | .vUnit, input, comps, rest, hwf, hfl => by
    rw [flatten] at hfl
    cases hfl
    rw [shapeOf, List.nil_append, decodeShape, preload_preloaded]
  | .vUnitVariant name, input, comps, rest, hwf, hfl => by
    rw [flatten] at hfl
    cases hfl
    rw [shapeOf, List.singleton_append, decodeShape, nextComponent_cons]
    dsimp only
    rw [if_pos (List.mem_singleton_self name)]
  | .vNewtype v, input, comps, rest, hwf, hfl => by
    rw [flatten] at hfl
    rw [wfValue] at hwf
    rw [shapeOf, decodeShape, decodeShape_flatten v input comps rest hwf hfl]
  | .vTuple vs, input, comps, rest, hwf, hfl => by
    rw [flatten] at hfl
    rw [wfValue] at hwf
    rw [shapeOf, decodeShape, decodeFields_flatten vs input comps rest hwf hfl]
  | .vNone, input, comps, rest, hwf, hfl => absurd hwf (by rw [wfValue]; exact not_false)
  | .vSome _, input, comps, rest, hwf, hfl => absurd hwf (by rw [wfValue]; exact not_false)
  | .vSeq _, input, comps, rest, hwf, hfl => absurd hwf (by rw [wfValue]; exact not_false)
  | .vMap, input, comps, rest, hwf, hfl => absurd hwf (by rw [wfValue]; exact not_false)
  | .vNewtypeVariant _ _, input, comps, rest, hwf, hfl =>
    absurd hwf (by rw [wfValue]; exact not_false)
  | .vTupleVariant _ _, input, comps, rest, hwf, hfl =>
    absurd hwf (by rw [wfValue]; exact not_false)
  | .vStructVariant _ _, input, comps, rest, hwf, hfl =>
    absurd hwf (by rw [wfValue]; exact not_false)

theorem decodeFields_flatten : ∀ (vs : List Value) (input : List Nat)
    (comps rest : List (List Char)), wfValueList vs → flattenList vs = some comps →
    decodeFields (shapeOfList vs) ⟨input, some (comps ++ rest)⟩ =
      .ok (vs, ⟨input, some rest⟩)
  | [], input, comps, rest, hwf, hfl => by
    rw [flattenList] at hfl
    cases hfl
    rw [shapeOfList, List.nil_append, decodeFields]
  | v :: vs, input, comps, rest, hwf, hfl => by
    rw [flattenList] at hfl
    rw [wfValueList] at hwf
    cases hv : flatten v with
    | none => rw [hv] at hfl; cases hfl
    | some a =>
      cases hvs : flattenList vs with
      | none => rw [hv, hvs] at hfl; cases hfl
      | some b =>
        rw [hv, hvs] at hfl
        cases hfl
        rw [shapeOfList, decodeFields, List.append_assoc,
          decodeShape_flatten v input a (b ++ rest) hwf.1 hv]
        dsimp only
        rw [decodeFields_flatten vs input b rest hwf.2 hvs]

end

/-! ## Lazy preloading does not change results

The reader materializes its queue on first access; decoding from a reader
whose queue is not yet split gives the same outcome as decoding from its
materialized form. -/

/-- Results agree and the final readers materialize to the same queue. -/
def resultEquiv : Except Error (Value × ReaderState) →
    Except Error (Value × ReaderState) → Prop
  | .error e, .error e' => e = e'
  | .ok (v, r), .ok (v', r') => v = v' ∧ preloadComponents r = preloadComponents r'
  | _, _ => False

/-- `resultEquiv` for field lists. -/
def fieldsResultEquiv : Except Error (List Value × ReaderState) →
    Except Error (List Value × ReaderState) → Prop
  | .error e, .error e' => e = e'
  | .ok (vs, r), .ok (vs', r') => vs = vs' ∧ preloadComponents r = preloadComponents r'
  | _, _ => False

theorem resultEquiv_refl : ∀ x, resultEquiv x x
  | .error _ => rfl
  | .ok (_, _) => ⟨rfl, rfl⟩

theorem fieldsResultEquiv_refl : ∀ x, fieldsResultEquiv x x
  | .error _ => rfl
  | .ok (_, _) => ⟨rfl, rfl⟩

theorem nextComponent_congr {ra rb : ReaderState}
    (h : preloadComponents ra = preloadComponents rb) :
    nextComponent ra = nextComponent rb := by
  rw [nextComponent, nextComponent, h]

mutual

theorem decodeShape_congr : ∀ (s : Shape) (ra rb : ReaderState),
    preloadComponents ra = preloadComponents rb →
    resultEquiv (decodeShape s ra) (decodeShape s rb)
  | .sBool, ra, rb, h => by
    rw [decodeShape, decodeShape, nextComponent_congr h]
    exact resultEquiv_refl _
  | .sUInt w, ra, rb, h => by
    rw [decodeShape, decodeShape, nextComponentDecodeHex, nextComponentDecodeHex,
      nextComponent_congr h]
    exact resultEquiv_refl _
  | .sInt w, ra, rb, h => by
    rw [decodeShape, decodeShape, nextComponentDecodeHex, nextComponentDecodeHex,
      nextComponent_congr h]
    exact resultEquiv_refl _
  | .sF32, ra, rb, h => by
    rw [decodeShape, decodeShape, nextComponentDecodeHex, nextComponentDecodeHex,
      nextComponent_congr h]
    exact resultEquiv_refl _
  | .sF64, ra, rb, h => by
    rw [decodeShape, decodeShape, nextComponentDecodeHex, nextComponentDecodeHex,
      nextComponent_congr h]
    exact resultEquiv_refl _
  | .sChar, ra, rb, h => by
    rw [decodeShape, decodeShape, nextComponent_congr h]
    exact resultEquiv_refl _
  | .sStr, ra, rb, h => by
    rw [decodeShape, decodeShape, nextComponent_congr h]
    exact resultEquiv_refl _
  | .sBytes, ra, rb, h => by
    rw [decodeShape, decodeShape, nextComponentDecodeHex, nextComponentDecodeHex,
      nextComponent_congr h]
    exact resultEquiv_refl _
  | .sUnit, ra, rb, h => by
    rw [decodeShape, decodeShape, h]
    exact resultEquiv_refl _
  | .sEnum variants, ra, rb, h => by
    rw [decodeShape, decodeShape, nextComponent_congr h]
    exact resultEquiv_refl _
  | .sNewtype s, ra, rb, h => by
    rw [decodeShape, decodeShape]
    have hs := decodeShape_congr s ra rb h
    cases hra : decodeShape s ra with
    | error e =>
      cases hrb : decodeShape s rb with
      | error e' =>
        rw [hra, hrb] at hs
        have he : e = e' := hs
        subst he
        exact rfl
      | ok pair =>
        rw [hra, hrb] at hs
        obtain ⟨v', r'⟩ := pair
        exact False.elim hs
    | ok pair =>
      obtain ⟨v, r⟩ := pair
      cases hrb : decodeShape s rb with
      | error e' =>
        rw [hra, hrb] at hs
        exact False.elim hs
      | ok pair' =>
        obtain ⟨v', r'⟩ := pair'
        rw [hra, hrb] at hs
        obtain ⟨hv, hr⟩ := hs
        subst hv
        exact ⟨rfl, hr⟩
  | .sTuple ss, ra, rb, h => by
    rw [decodeShape, decodeShape]
    have hs := decodeFields_congr ss ra rb h
    cases hra : decodeFields ss ra with
    | error e =>
      cases hrb : decodeFields ss rb with
      | error e' =>
        rw [hra, hrb] at hs
        have he : e = e' := hs
        subst he
        exact rfl
      | ok pair =>
        rw [hra, hrb] at hs
        obtain ⟨v', r'⟩ := pair
        exact False.elim hs
    | ok pair =>
      obtain ⟨vs, r⟩ := pair
      cases hrb : decodeFields ss rb with
      | error e' =>
        rw [hra, hrb] at hs
        exact False.elim hs
      | ok pair' =>
        obtain ⟨vs', r'⟩ := pair'
        rw [hra, hrb] at hs
        obtain ⟨hv, hr⟩ := hs
        subst hv
        exact ⟨rfl, hr⟩
  | .sOption, ra, rb, h => by
    rw [decodeShape, decodeShape]
    exact rfl
  | .sSeq, ra, rb, h => by
    rw [decodeShape, decodeShape]
    exact rfl
  | .sMap, ra, rb, h => by
    rw [decodeShape, decodeShape]
    exact rfl

theorem decodeFields_congr : ∀ (ss : List Shape) (ra rb : ReaderState),
    preloadComponents ra = preloadComponents rb →
    fieldsResultEquiv (decodeFields ss ra) (decodeFields ss rb)
  | [], ra, rb, h => by
    rw [decodeFields, decodeFields]
    exact ⟨rfl, h⟩
  | s :: ss, ra, rb, h => by
    rw [decodeFields, decodeFields]
    have hs := decodeShape_congr s ra rb h
    cases hra : decodeShape s ra with
    | error e =>
      cases hrb : decodeShape s rb with
      | error e' =>
        rw [hra, hrb] at hs
        have he : e = e' := hs
        subst he
        exact rfl
      | ok pair =>
        rw [hra, hrb] at hs
        obtain ⟨v', r'⟩ := pair
        exact False.elim hs
    | ok pair =>
      obtain ⟨v, r1⟩ := pair
      cases hrb : decodeShape s rb with
      | error e' =>
        rw [hra, hrb] at hs
        exact False.elim hs
      | ok pair' =>
        obtain ⟨v', r2⟩ := pair'
        rw [hra, hrb] at hs
        obtain ⟨hv, hr⟩ := hs
        subst hv
        dsimp only
        have htail := decodeFields_congr ss r1 r2 hr
        cases h1 : decodeFields ss r1 with
        | error e =>
          cases h2 : decodeFields ss r2 with
          | error e' =>
            rw [h1, h2] at htail
            have he : e = e' := htail
            subst he
            exact rfl
          | ok pair2 =>
            rw [h1, h2] at htail
            obtain ⟨vs2, rr2⟩ := pair2
            exact False.elim htail
        | ok pair1 =>
          obtain ⟨vs1, rr1⟩ := pair1
          cases h2 : decodeFields ss r2 with
          | error e' =>
            rw [h1, h2] at htail
            exact False.elim htail
          | ok pair2 =>
            obtain ⟨vs2, rr2⟩ := pair2
            rw [h1, h2] at htail
            obtain ⟨hvs, hrr⟩ := htail
            subst hvs
            exact ⟨rfl, hrr⟩

end

/-! ## Entry-point characterizations and the round trip -/

theorem toVecChars_eq {v : Value} {comps : List (List Char)}
    (hfl : flatten v = some comps) :
    toVecChars v = .ok (emitComps false comps) := by
  rw [toVecChars, serValue_flatten_ok v ⟨[], false⟩ comps hfl]
  dsimp only [appendComps]
  rw [List.nil_append]

theorem toVec_eq {v : Value} {comps : List (List Char)}
    (hfl : flatten v = some comps) :
    toVec v = .ok (docBytes (emitComps false comps)) := by
  rw [toVec, serValue_flatten_ok v ⟨[], false⟩ comps hfl]
  dsimp only [appendComps]
  rw [List.nil_append]

theorem toVec_err {v : Value} (hfl : flatten v = none) :
    toVec v = .error .unsupportedType := by
  rw [toVec]
  have herr := serValue_flatten_err v ⟨[], false⟩ hfl
  rcases hsv : serValue v ⟨[], false⟩ with ⟨st', oe⟩
  rw [hsv] at herr
  dsimp only at herr
  subst herr
  rfl

/-- `from_slice` after a successful decode whose reader materializes to the
empty queue succeeds with the decoded value. -/
theorem fromSlice_of_decode {shape : Shape} {input : List Nat} {v : Value}
    (hchars : ∃ chars, utf8Decode input = some chars ∧
      decodeShape shape ⟨input, some (splitDoc chars)⟩ = .ok (v, ⟨input, some []⟩)) :
    fromSlice shape input = .ok v := by
  obtain ⟨chars, hdec, hshape⟩ := hchars
  have hpre0 : preloadComponents ⟨input, none⟩ =
      .ok ⟨input, some (splitDoc chars)⟩ := by
    rw [preloadComponents]
    dsimp only
    rw [hdec]
  have hpre1 : preloadComponents (⟨input, none⟩ : ReaderState) =
      preloadComponents ⟨input, some (splitDoc chars)⟩ := by
    rw [hpre0, preload_preloaded]
  have hcongr := decodeShape_congr shape ⟨input, none⟩ ⟨input, some (splitDoc chars)⟩ hpre1
  rw [hshape] at hcongr
  rw [fromSlice]
  cases hres : decodeShape shape ⟨input, none⟩ with
  | error e =>
    rw [hres] at hcongr
    exact False.elim hcongr
  | ok pair =>
    obtain ⟨v', r'⟩ := pair
    rw [hres] at hcongr
    obtain ⟨hv, hr⟩ := hcongr
    subst hv
    have hnext : nextComponent r' = .ok (none, ⟨input, some []⟩) := by
      rw [nextComponent, hr, preload_preloaded]
    dsimp only
    rw [hnext]

/-- Round trip at the document level: encoding a well-formed supported value
whose component sequence is not a single empty component, then decoding the
bytes against the value's own shape (including the trailing `end()` check),
returns the value. -/
theorem fromSlice_toVec (v : Value) (hwf : wfValue v)
    (hne : flatten v ≠ some [[]]) :
    ∃ bs, toVec v = .ok bs ∧ fromSlice (shapeOf v) bs = .ok v := by
  obtain ⟨comps, hfl⟩ := flatten_isSome v hwf
  refine ⟨_, toVec_eq hfl, ?_⟩
  apply fromSlice_of_decode
  refine ⟨emitComps false comps, utf8Decode_docBytes _, ?_⟩
  have hsplit : splitDoc (emitComps false comps) = comps := by
    by_cases hcomps : comps = []
    · subst hcomps
      rfl
    · exact splitDoc_emitComps comps hcomps
        (fun hx => hne (hx ▸ hfl)) (flatten_no_colon v comps hwf hfl)
  rw [hsplit]
  have := decodeShape_flatten v (docBytes (emitComps false comps)) comps [] hwf hfl
  rw [List.append_nil] at this
  exact this

/-! ## Lexicographic order machinery

`bytesLt` is byte-lexicographic order, the order of Rust's `Ord` on
`Vec<u8>`/`&[u8]` — the order a sorted key-value store applies to keys. -/

/-- Strict byte-lexicographic order. -/
def bytesLt (a b : List Nat) : Prop :=
  List.Lex (· < ·) a b

/-- Code-point order on characters (Rust's `Ord` on `char`). -/
def charLt (c d : Char) : Prop :=
  c.toNat < d.toNat

/-- Byte order together with the byte range, as needed to push comparisons
through the per-byte hex expansion. -/
def byteLtB (a b : Nat) : Prop :=
  a < b ∧ a < 256 ∧ b < 256

theorem lex_append_left {α : Type} {s : α → α → Prop} {as bs : List α}
    (h : List.Lex s as bs) : ∀ xs : List α, List.Lex s (xs ++ as) (xs ++ bs) := by
  intro xs
  induction xs with
  | nil => exact h
  | cons x xs ih => exact List.Lex.cons ih

theorem lex_flatten_map {α β : Type} {r : α → α → Prop} {s : β → β → Prop}
    (enc : α → List β)
    (henc : ∀ a b, r a b → ∀ r1 r2, List.Lex s (enc a ++ r1) (enc b ++ r2))
    (hne : ∀ a, enc a ≠ []) :
    ∀ {xs ys : List α}, List.Lex r xs ys →
      List.Lex s ((xs.map enc).flatten) ((ys.map enc).flatten) := by
  intro xs ys h
  induction h with
  | nil =>
    rename_i b bs
    simp only [List.map_nil, List.flatten_nil, List.map_cons, List.flatten_cons]
    cases hb : enc b with
    | nil => exact absurd hb (hne b)
    | cons x xs => exact List.Lex.nil
  | @cons a as bs hab ih =>
    simp only [List.map_cons, List.flatten_cons]
    exact lex_append_left ih (enc a)
  | @rel a as b bs hab =>
    simp only [List.map_cons, List.flatten_cons]
    exact henc a b hab _ _

theorem lex_map_mono {α β : Type} {r : α → α → Prop} {s : β → β → Prop}
    (f : α → β) (hf : ∀ a b, r a b → s (f a) (f b)) :
    ∀ {xs ys : List α}, List.Lex r xs ys → List.Lex s (xs.map f) (ys.map f) := by
  intro xs ys h
  induction h with
  | nil => exact List.Lex.nil
  | cons hab ih => exact List.Lex.cons ih
  | rel hab => exact List.Lex.rel (hf _ _ hab)

theorem lex_strengthen_bytes : ∀ {xs ys : List Nat}, List.Lex (· < ·) xs ys →
    (∀ x ∈ xs, x < 256) → (∀ y ∈ ys, y < 256) → List.Lex byteLtB xs ys := by
  intro xs ys h
  induction h with
  | nil =>
    intro _ _
    exact List.Lex.nil
  | @cons a as bs hab ih =>
    intro hxs hys
    exact List.Lex.cons (ih (fun x hx => hxs x (List.mem_cons_of_mem _ hx))
      (fun y hy => hys y (List.mem_cons_of_mem _ hy)))
  | @rel a as b bs hab =>
    intro hxs hys
    exact List.Lex.rel ⟨hab, hxs a (List.mem_cons_self _ _), hys b (List.mem_cons_self _ _)⟩

/-! ### Fixed-width big-endian digit strings compare like their values -/

/-- Front-first base-256 digits (`w` digits, most significant first). -/
def natDigits256 : Nat → Nat → List Nat
  | 0, _ => []
  | w + 1, x => x / 256 ^ w :: natDigits256 w (x % 256 ^ w)

theorem natDigits256_shift : ∀ (w x : Nat), x < 256 ^ (w + 1) →
    natDigits256 (w + 1) x = natDigits256 w (x / 256) ++ [x % 256]
  | 0, x, h => by
    have h' : x < 256 := by
      have h2 := h
      simp only [pow_one] at h2
      exact h2
    simp [natDigits256, Nat.mod_eq_of_lt h']
  | w + 1, x, h => by
    have hmod : x % 256 ^ (w + 1) < 256 ^ (w + 1) :=
      Nat.mod_lt _ (Nat.pos_pow_of_pos _ (by norm_num))
    have hih := natDigits256_shift w (x % 256 ^ (w + 1)) hmod
    rw [natDigits256, hih]
    have h1 : x % 256 ^ (w + 1) / 256 = x / 256 % 256 ^ w := by
      rw [show (256 : Nat) ^ (w + 1) = 256 * 256 ^ w from by rw [pow_succ']]
      exact Nat.mod_mul_right_div_self x 256 (256 ^ w)
    have h2 : x % 256 ^ (w + 1) % 256 = x % 256 := by
      apply Nat.mod_mod_of_dvd
      exact dvd_pow_self 256 (by omega)
    have h3 : x / 256 ^ (w + 1) = x / 256 / 256 ^ w := by
      rw [Nat.div_div_eq_div_mul, ← pow_succ']
    rw [h1, h2, h3, natDigits256]
    rfl

theorem beBytes_eq_natDigits256 : ∀ (w x : Nat), x < 256 ^ w →
    beBytes w x = natDigits256 w x
  | 0, x, _ => rfl
  | w + 1, x, h => by
    have hdiv : x / 256 < 256 ^ w := by
      apply Nat.div_lt_of_lt_mul
      rw [← pow_succ']
      exact h
    rw [beBytes, beBytes_eq_natDigits256 w (x / 256) hdiv, natDigits256_shift w x h]

theorem natDigits256_lex : ∀ (w x y : Nat), x < y → y < 256 ^ w →
    List.Lex byteLtB (natDigits256 w x) (natDigits256 w y)
  | 0, x, y, hxy, hy => absurd hy (by omega)
  | w + 1, x, y, hxy, hy => by
    have hx : x < 256 ^ (w + 1) := lt_trans hxy hy
    have hxd : x / 256 ^ w < 256 := by
      apply Nat.div_lt_of_lt_mul
      calc x < 256 ^ (w + 1) := hx
        _ = 256 ^ w * 256 := by rw [pow_succ]
    have hyd : y / 256 ^ w < 256 := by
      apply Nat.div_lt_of_lt_mul
      calc y < 256 ^ (w + 1) := hy
        _ = 256 ^ w * 256 := by rw [pow_succ]
    rcases Nat.lt_or_ge (x / 256 ^ w) (y / 256 ^ w) with hda | hda
    · exact List.Lex.rel ⟨hda, hxd, hyd⟩
    · have hde : x / 256 ^ w = y / 256 ^ w := by
        have := Nat.div_le_div_right (c := 256 ^ w) (le_of_lt hxy)
        omega
      have hxm := Nat.div_add_mod x (256 ^ w)
      have hym := Nat.div_add_mod y (256 ^ w)
      rw [hde] at hxm
      have hmlt : x % 256 ^ w < y % 256 ^ w := by omega
      have hmy : y % 256 ^ w < 256 ^ w :=
        Nat.mod_lt _ (Nat.pos_pow_of_pos _ (by norm_num))
      rw [natDigits256, natDigits256, hde]
      exact List.Lex.cons (natDigits256_lex w _ _ hmlt hmy)

theorem pow256_eq (w : Nat) : (256 : Nat) ^ w = 2 ^ (8 * w) := by
  rw [show (256 : Nat) = 2 ^ 8 by norm_num, ← pow_mul]

theorem beBytes_lex {w x y : Nat} (hxy : x < y) (hy : y < 2 ^ (8 * w)) :
    List.Lex byteLtB (beBytes w x) (beBytes w y) := by
  rw [← pow256_eq] at hy
  rw [beBytes_eq_natDigits256 w x (lt_trans hxy hy), beBytes_eq_natDigits256 w y hy]
  exact natDigits256_lex w x y hxy hy

/-! ### The hex expansion preserves byte order -/

theorem hexDigitChar_mono : ∀ d1 < 16, ∀ d2 < 16, d1 < d2 →
    (hexDigitChar d1).toNat < (hexDigitChar d2).toNat := by
  decide

theorem hexEncodeByte_lex (a b : Nat) (hab : byteLtB a b) (r1 r2 : List Char) :
    List.Lex charLt (hexEncodeByte a ++ r1) (hexEncodeByte b ++ r2) := by
  obtain ⟨hlt, ha, hb⟩ := hab
  have had : a / 16 < 16 := Nat.div_lt_of_lt_mul (by omega)
  have hbd : b / 16 < 16 := Nat.div_lt_of_lt_mul (by omega)
  simp only [hexEncodeByte, List.cons_append, List.nil_append]
  rcases Nat.lt_or_ge (a / 16) (b / 16) with hda | hda
  · exact List.Lex.rel (hexDigitChar_mono _ had _ hbd hda)
  · have hde : a / 16 = b / 16 := by omega
    rw [hde]
    refine List.Lex.cons (List.Lex.rel ?_)
    exact hexDigitChar_mono _ (Nat.mod_lt _ (by norm_num)) _
      (Nat.mod_lt _ (by norm_num)) (by omega)

theorem hexEncode_lex {xs ys : List Nat} (h : List.Lex byteLtB xs ys) :
    List.Lex charLt (hexEncode xs) (hexEncode ys) :=
  lex_flatten_map hexEncodeByte
    (fun a b hab r1 r2 => hexEncodeByte_lex a b hab r1 r2)
    (fun _ => by simp [hexEncodeByte]) h

/-! ### ASCII documents: characters map one-to-one onto bytes -/

theorem utf8EncodeChar_ascii {c : Char} (h : c.toNat < 128) :
    utf8EncodeChar c = [c.toNat] := by
  rw [utf8EncodeChar]
  rw [if_pos h]

theorem docBytes_ascii : ∀ {cs : List Char}, (∀ c ∈ cs, c.toNat < 128) →
    docBytes cs = cs.map Char.toNat := by
  intro cs h
  induction cs with
  | nil => rfl
  | cons c tail ih =>
    have hsplit : docBytes (c :: tail) = utf8EncodeChar c ++ docBytes tail := by
      simp [docBytes]
    rw [hsplit, utf8EncodeChar_ascii (h c (List.mem_cons_self _ _)),
      ih (fun x hx => h x (List.mem_cons_of_mem _ hx)), List.map_cons,
      List.singleton_append]

theorem hexDigitChar_ascii : ∀ d < 16, (hexDigitChar d).toNat < 128 := by
  decide

theorem hexEncode_ascii {bs : List Nat} (h : ∀ b ∈ bs, b < 256) :
    ∀ c ∈ hexEncode bs, c.toNat < 128 := by
  intro c hc
  obtain ⟨d, hd, hcd⟩ := mem_hexEncode h hc
  subst hcd
  exact hexDigitChar_ascii d hd

theorem docBytes_lex_of_charLt {xs ys : List Char}
    (hxs : ∀ c ∈ xs, c.toNat < 128) (hys : ∀ c ∈ ys, c.toNat < 128)
    (h : List.Lex charLt xs ys) : bytesLt (docBytes xs) (docBytes ys) := by
  rw [docBytes_ascii hxs, docBytes_ascii hys]
  exact lex_map_mono Char.toNat (fun a b hab => hab) h

/-- Byte order of the single-component document of a hex encoding. -/
theorem docBytes_hexEncode_lex {xs ys : List Nat}
    (hxs : ∀ b ∈ xs, b < 256) (hys : ∀ b ∈ ys, b < 256)
    (h : List.Lex byteLtB xs ys) :
    bytesLt (docBytes (hexEncode xs)) (docBytes (hexEncode ys)) :=
  docBytes_lex_of_charLt (hexEncode_ascii hxs) (hexEncode_ascii hys) (hexEncode_lex h)

/-! ### UTF-8 preserves code-point order

UTF-8 is an order-embedding prefix code: comparing the byte sequences of two
scalar values (with anything appended) agrees with comparing the values. -/

theorem utf8EncodeChar_lex (c1 c2 : Char) (h : charLt c1 c2) (r1 r2 : List Nat) :
    List.Lex (· < ·) (utf8EncodeChar c1 ++ r1) (utf8EncodeChar c2 ++ r2) := by
  have hn : c1.toNat < c2.toNat := h
  have hv2 := char_valid c2
  rw [utf8EncodeChar, utf8EncodeChar]
  by_cases h11 : c1.toNat < 0x80
  · rw [if_pos h11]
    by_cases h21 : c2.toNat < 0x80
    · rw [if_pos h21]
      simp only [List.cons_append, List.nil_append]
      exact List.Lex.rel hn
    · rw [if_neg h21]
      by_cases h22 : c2.toNat < 0x800
      · rw [if_pos h22]
        simp only [List.cons_append, List.nil_append]
        exact List.Lex.rel (by omega)
      · rw [if_neg h22]
        by_cases h23 : c2.toNat < 0x10000
        · rw [if_pos h23]
          simp only [List.cons_append, List.nil_append]
          exact List.Lex.rel (by omega)
        · rw [if_neg h23]
          simp only [List.cons_append, List.nil_append]
          exact List.Lex.rel (by omega)
  · rw [if_neg h11]
    by_cases h12 : c1.toNat < 0x800
    · rw [if_pos h12]
      by_cases h21 : c2.toNat < 0x80
      · exact absurd hn (by omega)
      · rw [if_neg h21]
        by_cases h22 : c2.toNat < 0x800
        · rw [if_pos h22]
          simp only [List.cons_append, List.nil_append]
          rcases Nat.lt_or_ge (c1.toNat / 64) (c2.toNat / 64) with hd | hd
          · exact List.Lex.rel (by omega)
          · rw [show 0xC0 + c1.toNat / 64 = 0xC0 + c2.toNat / 64 by omega]
            exact List.Lex.cons (List.Lex.rel (by omega))
        · rw [if_neg h22]
          by_cases h23 : c2.toNat < 0x10000
          · rw [if_pos h23]
            simp only [List.cons_append, List.nil_append]
            exact List.Lex.rel (by omega)
          · rw [if_neg h23]
            simp only [List.cons_append, List.nil_append]
            exact List.Lex.rel (by omega)
    · rw [if_neg h12]
      by_cases h13 : c1.toNat < 0x10000
      · rw [if_pos h13]
        by_cases h21 : c2.toNat < 0x80
        · exact absurd hn (by omega)
        · rw [if_neg h21]
          by_cases h22 : c2.toNat < 0x800
          · exact absurd hn (by omega)
          · rw [if_neg h22]
            by_cases h23 : c2.toNat < 0x10000
            · rw [if_pos h23]
              simp only [List.cons_append, List.nil_append]
              rcases Nat.lt_or_ge (c1.toNat / 4096) (c2.toNat / 4096) with hd | hd
              · exact List.Lex.rel (by omega)
              · rw [show 0xE0 + c1.toNat / 4096 = 0xE0 + c2.toNat / 4096 by omega]
                refine List.Lex.cons ?_
                rcases Nat.lt_or_ge (c1.toNat / 64 % 64) (c2.toNat / 64 % 64) with
                  hd2 | hd2
                · exact List.Lex.rel (by omega)
                · rw [show 0x80 + c1.toNat / 64 % 64 = 0x80 + c2.toNat / 64 % 64
                      by omega]
                  exact List.Lex.cons (List.Lex.rel (by omega))
            · rw [if_neg h23]
              simp only [List.cons_append, List.nil_append]
              exact List.Lex.rel (by omega)
      · rw [if_neg h13]
        by_cases h21 : c2.toNat < 0x80
        · exact absurd hn (by omega)
        · rw [if_neg h21]
          by_cases h22 : c2.toNat < 0x800
          · exact absurd hn (by omega)
          · rw [if_neg h22]
            by_cases h23 : c2.toNat < 0x10000
            · exact absurd hn (by omega)
            · rw [if_neg h23]
              simp only [List.cons_append, List.nil_append]
              rcases Nat.lt_or_ge (c1.toNat / 262144) (c2.toNat / 262144) with hd | hd
              · exact List.Lex.rel (by omega)
              · rw [show 0xF0 + c1.toNat / 262144 = 0xF0 + c2.toNat / 262144 by omega]
                refine List.Lex.cons ?_
                rcases Nat.lt_or_ge (c1.toNat / 4096 % 64) (c2.toNat / 4096 % 64) with
                  hd2 | hd2
                · exact List.Lex.rel (by omega)
                · rw [show 0x80 + c1.toNat / 4096 % 64 = 0x80 + c2.toNat / 4096 % 64
                      by omega]
                  refine List.Lex.cons ?_
                  rcases Nat.lt_or_ge (c1.toNat / 64 % 64) (c2.toNat / 64 % 64) with
                    hd3 | hd3
                  · exact List.Lex.rel (by omega)
                  · rw [show 0x80 + c1.toNat / 64 % 64 = 0x80 + c2.toNat / 64 % 64
                        by omega]
                    exact List.Lex.cons (List.Lex.rel (by omega))

theorem docBytes_lex_str {xs ys : List Char} (h : List.Lex charLt xs ys) :
    bytesLt (docBytes xs) (docBytes ys) :=
  lex_flatten_map utf8EncodeChar
    (fun a b hab r1 r2 => utf8EncodeChar_lex a b hab r1 r2)
    utf8EncodeChar_ne_nil h

/-! ### IEEE-754 float values from bit patterns

A finite binary float with `mantBits` mantissa bits and pattern fields
`(s, e, m)` has value `(-1)^s * sig * 2^(E - bias - mantBits)` with
`sig = 2^mantBits + m` and `E = e` for normal numbers (`e > 0`) and
`sig = m`, `E = 1` for subnormals.  All such values are integer multiples of
the smallest subnormal, so comparing them is comparing the integers
`(-1)^s * sig * 2^(max e 1 - 1)` — the value scaled by `2^(bias+mantBits-1)`.
`floatScaledVal` is that integer; the natural order on finite floats of one
width is the order of these integers (`-0.0` and `+0.0` both map to `0`). -/

/-- Scaled magnitude of the non-sign bits `low` (exponent and mantissa). -/
def floatMag (mantBits low : Nat) : Nat :=
  ((if low / 2 ^ mantBits = 0 then 0 else 2 ^ mantBits) + low % 2 ^ mantBits) *
    2 ^ (max (low / 2 ^ mantBits) 1 - 1)

/-- The scaled value of the `wbits`-bit pattern `b`. -/
def floatScaledVal (wbits mantBits : Nat) (b : Nat) : Int :=
  if b < 2 ^ (wbits - 1) then (floatMag mantBits b : Int)
  else -((floatMag mantBits (b - 2 ^ (wbits - 1)) : Int))

/-- The pattern `b` is a finite float: its exponent field is not all ones. -/
def floatFinite (wbits mantBits : Nat) (b : Nat) : Prop :=
  b % 2 ^ (wbits - 1) / 2 ^ mantBits ≠ 2 ^ (wbits - 1 - mantBits) - 1

theorem floatMag_strictMono (mantBits : Nat) : ∀ {l1 l2 : Nat}, l1 < l2 →
    floatMag mantBits l1 < floatMag mantBits l2 := by
  intro l1 l2 h
  have hK : 0 < 2 ^ mantBits := Nat.pos_pow_of_pos _ (by norm_num)
  have he12 : l1 / 2 ^ mantBits ≤ l2 / 2 ^ mantBits :=
    Nat.div_le_div_right (le_of_lt h)
  rcases eq_or_lt_of_le he12 with he | he
  · have hc1 := Nat.div_add_mod l1 (2 ^ mantBits)
    have hc2 := Nat.div_add_mod l2 (2 ^ mantBits)
    rw [he] at hc1
    have hm : l1 % 2 ^ mantBits < l2 % 2 ^ mantBits := by omega
    rw [floatMag, floatMag, he]
    have hfac : 0 < 2 ^ (max (l2 / 2 ^ mantBits) 1 - 1) :=
      Nat.pos_pow_of_pos _ (by norm_num)
    exact (Nat.mul_lt_mul_right hfac).mpr (by omega)
  · by_cases he1 : l1 / 2 ^ mantBits = 0
    · have hne2 : l2 / 2 ^ mantBits ≠ 0 :=
        Nat.pos_iff_ne_zero.mp (lt_of_le_of_lt (Nat.zero_le _) he)
      rw [floatMag, floatMag, if_pos he1, if_neg hne2, he1]
      have hfac : 1 ≤ 2 ^ (max (l2 / 2 ^ mantBits) 1 - 1) :=
        Nat.one_le_two_pow
      have hm1 : l1 % 2 ^ mantBits < 2 ^ mantBits := Nat.mod_lt _ hK
      calc (0 + l1 % 2 ^ mantBits) * 2 ^ (max 0 1 - 1)
          = l1 % 2 ^ mantBits := by simp
        _ < 2 ^ mantBits := hm1
        _ ≤ (2 ^ mantBits + l2 % 2 ^ mantBits) * 1 := by omega
        _ ≤ (2 ^ mantBits + l2 % 2 ^ mantBits) *
              2 ^ (max (l2 / 2 ^ mantBits) 1 - 1) := by
            apply Nat.mul_le_mul_left
            exact hfac
    · have he1' : 1 ≤ l1 / 2 ^ mantBits := Nat.pos_of_ne_zero he1
      have he2' : 1 ≤ l2 / 2 ^ mantBits := le_of_lt (lt_of_le_of_lt he1' he)
      have hne2 : l2 / 2 ^ mantBits ≠ 0 :=
        Nat.pos_iff_ne_zero.mp (lt_of_le_of_lt (Nat.zero_le _) he)
      rw [floatMag, floatMag, if_neg he1, if_neg hne2,
        max_eq_left he1', max_eq_left he2']
      have hm1 : l1 % 2 ^ mantBits < 2 ^ mantBits := Nat.mod_lt _ hK
      have hpow1 : (2 : Nat) ^ (l1 / 2 ^ mantBits) =
          2 * 2 ^ (l1 / 2 ^ mantBits - 1) := by
        have hp := pow_succ' (2 : Nat) (l1 / 2 ^ mantBits - 1)
        rw [show l1 / 2 ^ mantBits - 1 + 1 = l1 / 2 ^ mantBits by omega] at hp
        exact hp
      calc (2 ^ mantBits + l1 % 2 ^ mantBits) * 2 ^ (l1 / 2 ^ mantBits - 1)
          < (2 * 2 ^ mantBits) * 2 ^ (l1 / 2 ^ mantBits - 1) := by
            apply (Nat.mul_lt_mul_right (Nat.pos_pow_of_pos _ (by norm_num))).mpr
            omega
        _ = 2 ^ mantBits * 2 ^ (l1 / 2 ^ mantBits) := by
            rw [hpow1]
            ring
        _ ≤ 2 ^ mantBits * 2 ^ (l2 / 2 ^ mantBits - 1) := by
            apply Nat.mul_le_mul_left
            apply Nat.pow_le_pow_right (by norm_num)
            omega
        _ ≤ (2 ^ mantBits + l2 % 2 ^ mantBits) * 2 ^ (l2 / 2 ^ mantBits - 1) := by
            apply Nat.mul_le_mul_right
            omega

theorem floatMag_le_of_le (mantBits : Nat) {l1 l2 : Nat} (h : l1 ≤ l2) :
    floatMag mantBits l1 ≤ floatMag mantBits l2 := by
  rcases eq_or_lt_of_le h with he | hlt
  · subst he
    exact le_refl _
  · exact le_of_lt (floatMag_strictMono mantBits hlt)

theorem fEncPattern_mono_of_scaled {wbits mantBits : Nat} (hw : 0 < wbits)
    {b1 b2 : Nat} (h1 : b1 < 2 ^ wbits) (h2 : b2 < 2 ^ wbits)
    (hlt : floatScaledVal wbits mantBits b1 < floatScaledVal wbits mantBits b2) :
    fEncPattern wbits b1 < fEncPattern wbits b2 := by
  have hsplit : wbits - 1 + 1 = wbits := by omega
  have hk2 : (2 : Nat) ^ wbits = 2 ^ (wbits - 1) + 2 ^ (wbits - 1) := by
    have hp := pow_succ (2 : Nat) (wbits - 1)
    rw [hsplit] at hp
    omega
  rw [fEncPattern_eq b1 hw h1, fEncPattern_eq b2 hw h2]
  rw [floatScaledVal, floatScaledVal] at hlt
  by_cases hs1 : b1 < 2 ^ (wbits - 1) <;> by_cases hs2 : b2 < 2 ^ (wbits - 1)
  · rw [if_pos hs1, if_pos hs2] at hlt
    rw [if_pos hs1, if_pos hs2]
    have hmag : floatMag mantBits b1 < floatMag mantBits b2 := by exact_mod_cast hlt
    have hb : b1 < b2 := by
      by_contra hcon
      push_neg at hcon
      exact absurd (floatMag_le_of_le mantBits hcon) (by omega)
    omega
  · rw [if_pos hs1, if_neg hs2] at hlt
    exfalso
    have hge : (0 : Int) ≤ (floatMag mantBits b1 : Int) := Int.natCast_nonneg _
    have hge2 : (0 : Int) ≤ (floatMag mantBits (b2 - 2 ^ (wbits - 1)) : Int) :=
      Int.natCast_nonneg _
    omega
  · rw [if_neg hs1, if_pos hs2]
    omega
  · rw [if_neg hs1, if_neg hs2] at hlt
    rw [if_neg hs1, if_neg hs2]
    have hmag : floatMag mantBits (b2 - 2 ^ (wbits - 1)) <
        floatMag mantBits (b1 - 2 ^ (wbits - 1)) := by
      have hi : (floatMag mantBits (b2 - 2 ^ (wbits - 1)) : Int) <
          (floatMag mantBits (b1 - 2 ^ (wbits - 1)) : Int) := by omega
      exact_mod_cast hi
    have hb : b2 - 2 ^ (wbits - 1) < b1 - 2 ^ (wbits - 1) := by
      by_contra hcon
      push_neg at hcon
      exact absurd (floatMag_le_of_le mantBits hcon) (by omega)
    omega

/-! ## Order preservation for scalar values -/

/-- The natural strict order of same-type scalar values: `false < true` for
booleans, numeric order for integers, the scaled IEEE value order for finite
floats (section 4.1), code-point order for chars, and lexicographic order for
strings (Rust's `Ord` on `str` via UTF-8) and byte blobs. -/
def scalarLt : Value → Value → Prop
  | .vBool a, .vBool b => a = false ∧ b = true
  | .vUInt w1 a, .vUInt w2 b => w1 = w2 ∧ a < b
  | .vInt w1 a, .vInt w2 b => w1 = w2 ∧ a < b
  | .vF32 a, .vF32 b =>
    floatFinite 32 23 a ∧ floatFinite 32 23 b ∧
      floatScaledVal 32 23 a < floatScaledVal 32 23 b
  | .vF64 a, .vF64 b =>
    floatFinite 64 52 a ∧ floatFinite 64 52 b ∧
      floatScaledVal 64 52 a < floatScaledVal 64 52 b
  | .vChar a, .vChar b => charLt a b
  | .vStr a, .vStr b => List.Lex charLt a b
  | .vBytes a, .vBytes b => List.Lex (· < ·) a b
  | _, _ => False

/-- Machine bounds for scalar values (no delimiter restriction: ordering
holds for every scalar, delimiter or not). -/
def scalarBounds : Value → Prop
  | .vBool _ => True
  | .vUInt w n => n < 2 ^ (8 * w)
  | .vInt w n => 0 < w ∧ -(2 ^ (8 * w - 1)) ≤ n ∧ n < 2 ^ (8 * w - 1)
  | .vF32 b => b < 2 ^ 32
  | .vF64 b => b < 2 ^ 64
  | .vChar _ => True
  | .vStr _ => True
  | .vBytes bs => ∀ b ∈ bs, b < 256
  | _ => False

theorem emitComps_single (c : List Char) : emitComps false [c] = c := by
  simp [emitComps]

theorem toVec_single {v : Value} {comp : List Char}
    (hfl : flatten v = some [comp]) : toVec v = .ok (docBytes comp) := by
  rw [toVec_eq hfl, emitComps_single]

theorem iEncPattern_mono {w : Nat} {n1 n2 : Int} (hw : 0 < w)
    (hlo1 : -(2 ^ (8 * w - 1)) ≤ n1) (hhi1 : n1 < 2 ^ (8 * w - 1))
    (hlo2 : -(2 ^ (8 * w - 1)) ≤ n2) (hhi2 : n2 < 2 ^ (8 * w - 1))
    (h : n1 < n2) : iEncPattern w n1 < iEncPattern w n2 := by
  have hcast1 : ((2 ^ (8 * w - 1) : Nat) : Int) = 2 ^ (8 * w - 1) := by push_cast; ring
  rw [iEncPattern_eq n1 hw hlo1 hhi1, iEncPattern_eq n2 hw hlo2 hhi2]
  omega

/-- Order preservation (section 8): for same-type scalar values `a < b` under
the natural order, `to_vec(a)` is strictly below `to_vec(b)` in
byte-lexicographic order. -/
theorem toVec_order (v1 v2 : Value) (h1 : scalarBounds v1) (h2 : scalarBounds v2)
    (hlt : scalarLt v1 v2) :
    ∃ d1 d2, toVec v1 = .ok d1 ∧ toVec v2 = .ok d2 ∧ bytesLt d1 d2 := by
  cases v1 <;> cases v2 <;> try exact False.elim hlt
  · -- booleans
    rename_i a b
    obtain ⟨ha, hb⟩ := hlt
    subst ha
    subst hb
    exact ⟨_, _, rfl, rfl, by rw [bytesLt]; decide⟩
  · -- unsigned integers
    rename_i w1 n1 w2 n2
    obtain ⟨hw, hn⟩ := hlt
    subst hw
    refine ⟨_, _, toVec_single (by rw [flatten]), toVec_single (by rw [flatten]), ?_⟩
    exact docBytes_hexEncode_lex (beBytes_lt _ _) (beBytes_lt _ _) (beBytes_lex hn h2)
  · -- signed integers
    rename_i w1 n1 w2 n2
    obtain ⟨hw, hn⟩ := hlt
    subst hw
    obtain ⟨hwpos, hlo1, hhi1⟩ := h1
    obtain ⟨_, hlo2, hhi2⟩ := h2
    refine ⟨_, _, toVec_single (by rw [flatten]), toVec_single (by rw [flatten]), ?_⟩
    exact docBytes_hexEncode_lex (beBytes_lt _ _) (beBytes_lt _ _)
      (beBytes_lex (iEncPattern_mono hwpos hlo1 hhi1 hlo2 hhi2 hn)
        (iEncPattern_lt n2 hwpos hlo2 hhi2))
  · -- f32
    rename_i b1 b2
    obtain ⟨_, _, hs⟩ := hlt
    have henc := @fEncPattern_mono_of_scaled 32 23 (by norm_num) b1 b2 h1 h2 hs
    have hlt2 : fEncPattern 32 b2 < 2 ^ (8 * 4) := by
      have := fEncPattern_lt b2 (by norm_num) h2
      omega
    refine ⟨_, _, toVec_single (by rw [flatten]), toVec_single (by rw [flatten]), ?_⟩
    exact docBytes_hexEncode_lex (beBytes_lt _ _) (beBytes_lt _ _)
      (beBytes_lex henc hlt2)
  · -- f64
    rename_i b1 b2
    obtain ⟨_, _, hs⟩ := hlt
    have henc := @fEncPattern_mono_of_scaled 64 52 (by norm_num) b1 b2 h1 h2 hs
    have hlt2 : fEncPattern 64 b2 < 2 ^ (8 * 8) := by
      have := fEncPattern_lt b2 (by norm_num) h2
      omega
    refine ⟨_, _, toVec_single (by rw [flatten]), toVec_single (by rw [flatten]), ?_⟩
    exact docBytes_hexEncode_lex (beBytes_lt _ _) (beBytes_lt _ _)
      (beBytes_lex henc hlt2)
  · -- chars
    rename_i c1 c2
    refine ⟨_, _, toVec_single (by rw [flatten]), toVec_single (by rw [flatten]), ?_⟩
    have hutf := utf8EncodeChar_lex c1 c2 hlt [] []
    simp only [List.append_nil] at hutf
    have hd1 : docBytes [c1] = utf8EncodeChar c1 := by simp [docBytes]
    have hd2 : docBytes [c2] = utf8EncodeChar c2 := by simp [docBytes]
    rw [bytesLt, hd1, hd2]
    exact hutf
  · -- strings
    rename_i s1 s2
    refine ⟨_, _, toVec_single (by rw [flatten]), toVec_single (by rw [flatten]), ?_⟩
    exact docBytes_lex_str hlt
  · -- byte blobs
    rename_i bs1 bs2
    refine ⟨_, _, toVec_single (by rw [flatten]), toVec_single (by rw [flatten]), ?_⟩
    exact docBytes_hexEncode_lex h1 h2 (lex_strengthen_bytes hlt h1 h2)

/-! ## Unsupported kinds -/

mutual

/-- A value is of, or nests, a kind the encoder rejects (`Option`, dynamic
sequence, map, or an enum variant with payload). -/
def hasUnsupported : Value → Bool
  | .vBool _ => false
  | .vUInt _ _ => false
  | .vInt _ _ => false
  | .vF32 _ => false
  | .vF64 _ => false
  | .vChar _ => false
  | .vStr _ => false
  | .vBytes _ => false
  | .vUnit => false
  | .vUnitVariant _ => false
  | .vNewtype v => hasUnsupported v
  | .vTuple vs => hasUnsupportedList vs
  | .vNone => true
  | .vSome _ => true
  | .vSeq _ => true
  | .vMap => true
  | .vNewtypeVariant _ _ => true
  | .vTupleVariant _ _ => true
  | .vStructVariant _ _ => true

def hasUnsupportedList : List Value → Bool
  | [] => false
  | v :: vs => hasUnsupported v || hasUnsupportedList vs

end

mutual

theorem flatten_none_iff : ∀ (v : Value), flatten v = none ↔ hasUnsupported v = true
  | .vBool b => by rw [flatten, hasUnsupported]; simp
  | .vUInt w n => by rw [flatten, hasUnsupported]; simp
  | .vInt w n => by rw [flatten, hasUnsupported]; simp
  | .vF32 bits => by rw [flatten, hasUnsupported]; simp
  | .vF64 bits => by rw [flatten, hasUnsupported]; simp
  | .vChar c => by rw [flatten, hasUnsupported]; simp
  | .vStr s => by rw [flatten, hasUnsupported]; simp
  | .vBytes bs => by rw [flatten, hasUnsupported]; simp
  | .vUnit => by rw [flatten, hasUnsupported]; simp
  | .vUnitVariant name => by rw [flatten, hasUnsupported]; simp
  | .vNewtype v => by rw [flatten, hasUnsupported]; exact flatten_none_iff v
  | .vTuple vs => by rw [flatten, hasUnsupported]; exact flattenList_none_iff vs
  | .vNone => by rw [flatten, hasUnsupported]; simp
  | .vSome v => by rw [flatten, hasUnsupported]; simp
  | .vSeq vs => by rw [flatten, hasUnsupported]; simp
  | .vMap => by rw [flatten, hasUnsupported]; simp
  | .vNewtypeVariant name v => by rw [flatten, hasUnsupported]; simp
  | .vTupleVariant name vs => by rw [flatten, hasUnsupported]; simp
  | .vStructVariant name vs => by rw [flatten, hasUnsupported]; simp

theorem flattenList_none_iff : ∀ (vs : List Value),
    flattenList vs = none ↔ hasUnsupportedList vs = true
  | [] => by rw [flattenList, hasUnsupportedList]; simp
  | v :: vs => by
    rw [flattenList, hasUnsupportedList]
    have ihv := flatten_none_iff v
    have ihs := flattenList_none_iff vs
    cases h1 : flatten v with
    | none =>
      rw [h1] at ihv
      simp only [Bool.or_eq_true, ← ihs, ← ihv]
      simp
    | some a =>
      rw [h1] at ihv
      cases h2 : flattenList vs with
      | none =>
        rw [h2] at ihs
        simp only [Bool.or_eq_true, ← ihs, ← ihv]
        simp
      | some b =>
        rw [h2] at ihs
        simp only [Bool.or_eq_true, ← ihs, ← ihv]
        simp

end

/-! ## Delimiter counting -/

theorem count_emitComps_true (comps : List (List Char))
    (hnc : ∀ c ∈ comps, ':' ∉ c) :
    (emitComps true comps).count ':' = comps.length := by
  induction comps with
  | nil => simp [emitComps]
  | cons c cs ih =>
    have hc : c.count ':' = 0 :=
      List.count_eq_zero.mpr (hnc c (List.mem_cons_self _ _))
    have ihc := ih (fun x hx => hnc x (List.mem_cons_of_mem _ hx))
    simp [emitComps, List.count_append, hc, ihc]

theorem count_emitComps_false (comps : List (List Char))
    (hnc : ∀ c ∈ comps, ':' ∉ c) :
    (emitComps false comps).count ':' = comps.length - 1 := by
  cases comps with
  | nil => simp [emitComps]
  | cons c cs =>
    have hc : c.count ':' = 0 :=
      List.count_eq_zero.mpr (hnc c (List.mem_cons_self _ _))
    have ihc := count_emitComps_true cs (fun x hx => hnc x (List.mem_cons_of_mem _ hx))
    simp [emitComps, List.count_append, hc, ihc]

/-! ## The hex failure condition -/

theorem hexDecodePairs_err_iff : ∀ (cs : List Char), cs.length % 2 = 0 →
    ((∃ e, hexDecodePairs cs = .error e) ↔ ∃ c ∈ cs, hexDigitVal c = none)
  | [], _ => by simp [hexDecodePairs]
  | [c], h => by simp at h
  | c1 :: c2 :: rest, h => by
    have hrest : rest.length % 2 = 0 := by
      simp only [List.length_cons] at h
      omega
    have ih := hexDecodePairs_err_iff rest hrest
    rw [hexDecodePairs]
    cases h1 : hexDigitVal c1 with
    | none =>
      simp only [h1]
      constructor
      · intro _
        exact ⟨c1, List.mem_cons_self _ _, h1⟩
      · intro _
        exact ⟨.invalidChar c1, rfl⟩
    | some d1 =>
      cases h2 : hexDigitVal c2 with
      | none =>
        simp only [h2]
        constructor
        · intro _
          exact ⟨c2, List.mem_cons_of_mem _ (List.mem_cons_self _ _), h2⟩
        · intro _
          exact ⟨.invalidChar c2, rfl⟩
      | some d2 =>
        cases h3 : hexDecodePairs rest with
        | error e =>
          simp only [h3]
          constructor
          · intro _
            obtain ⟨c, hc, hval⟩ := ih.mp ⟨e, h3⟩
            exact ⟨c, List.mem_cons_of_mem _ (List.mem_cons_of_mem _ hc), hval⟩
          · intro _
            exact ⟨e, rfl⟩
        | ok bs =>
          simp only [h3]
          constructor
          · rintro ⟨e, he⟩
            cases he
          · rintro ⟨c, hc, hval⟩
            rcases List.mem_cons.mp hc with hcc | hc2
            · rw [hcc] at hval
              rw [hval] at h1
              cases h1
            rcases List.mem_cons.mp hc2 with hcc | hc3
            · rw [hcc] at hval
              rw [hval] at h2
              cases h2
            obtain ⟨e, he⟩ := ih.mpr ⟨c, hc3, hval⟩
            rw [he] at h3
            cases h3

theorem hexDecode_err_iff (cs : List Char) :
    (∃ e, hexDecode cs = .error e) ↔
      cs.length % 2 = 1 ∨ ∃ c ∈ cs, hexDigitVal c = none := by
  rw [hexDecode]
  by_cases hodd : cs.length % 2 = 1
  · rw [if_pos hodd]
    exact ⟨fun _ => Or.inl hodd, fun _ => ⟨.oddLength, rfl⟩⟩
  · rw [if_neg hodd]
    have heven : cs.length % 2 = 0 := by omega
    have h := hexDecodePairs_err_iff cs heven
    constructor
    · intro hx
      exact Or.inr (h.mp hx)
    · intro hx
      rcases hx with hx | hx
      · exact absurd hx hodd
      · exact h.mpr hx

theorem nextComponentDecodeHex_err {c : List Char} {e : HexError}
    (input : List Nat) (cs : List (List Char)) (herr : hexDecode c = .error e) :
    nextComponentDecodeHex ⟨input, some (c :: cs)⟩ =
      .error (.data (.hexMessage e)) := by
  rw [nextComponentDecodeHex, nextComponent_cons]
  dsimp only
  rw [herr]

/-! ## Decoding a zero-field shape from non-empty input -/

theorem fromSlice_unit_nonempty {input : List Nat} {chars : List Char}
    (hne : input ≠ []) (hdec : utf8Decode input = some chars) :
    fromSlice .sUnit input = .error .syntaxError := by
  obtain ⟨b, bs, rfl⟩ : ∃ b bs, input = b :: bs := by
    cases input with
    | nil => exact absurd rfl hne
    | cons b bs => exact ⟨b, bs, rfl⟩
  have hcs : chars ≠ [] := utf8Decode_ne_nil hdec
  obtain ⟨c, cs, hsplit⟩ : ∃ c cs, splitDoc chars = c :: cs := by
    rw [splitDoc, if_neg hcs]
    rcases hs : chars.splitOn ':' with _ | ⟨c, cs⟩
    · rw [List.splitOn] at hs
      exact absurd hs (List.splitOnP_ne_nil _ _)
    · exact ⟨c, cs, rfl⟩
  have hpre : preloadComponents ⟨b :: bs, none⟩ = .ok ⟨b :: bs, some (c :: cs)⟩ := by
    rw [preloadComponents]
    dsimp only
    rw [hdec]
    dsimp only
    rw [hsplit]
  rw [fromSlice, decodeShape, hpre]
  dsimp only
  rw [nextComponent_cons]

/-! ## The claims -/

/-- C1: round-trip, amended.  For every well-formed value of a supported
Value Shape (machine integers within their declared width, text components
free of the deliminator `:`), whose flattened form is not a single empty
component, `from_slice` applied to `to_vec`'s output against the value's own
shape succeeds and returns the value.  (The original claim, with no
restriction, is refuted by `roundtrip_delimiter_string_fails`.) -/
theorem roundtrip_supported_values (v : Value) (hwf : wfValue v)
    (hne : flatten v ≠ some [[]]) :
    ∃ bs, toVec v = .ok bs ∧ fromSlice (shapeOf v) bs = .ok v :=
  fromSlice_toVec v hwf hne

/-- Witness for C1: the one-character string round-trips. -/
theorem roundtrip_supported_values_witness :
    ∃ bs, toVec (.vStr ['a']) = .ok bs ∧
      fromSlice (shapeOf (.vStr ['a'])) bs = .ok (.vStr ['a']) :=
  roundtrip_supported_values (.vStr ['a'])
    (by rw [wfValue]; decide) (by rw [flatten]; decide)

/-- Counterexample for C1 as stated: the string `":"` is a value of the
supported string shape, but decoding its encoding fails (the deliminator
splits it into two empty components), so the unrestricted round-trip claim
is false. -/
theorem roundtrip_delimiter_string_fails :
    toVec (.vStr [':']) = .ok [58] ∧
    fromSlice (shapeOf (.vStr [':'])) [58] = .error .syntaxError := by
  constructor
  · rw [toVec_eq (show flatten (.vStr [':']) = some [[':']] by rw [flatten])]
    rfl
  · rw [shapeOf]
    have h1 : nextComponent ⟨[58], none⟩ = .ok (some [], ⟨[58], some [[]]⟩) := rfl
    rw [fromSlice, decodeShape, h1]
    dsimp only
    rw [nextComponent_cons]

/-- C2: order preservation.  For same-type scalar values `a < b` under the
type's natural order (booleans, unsigned/signed integers of any width, finite
f32/f64 by their scaled real value including across the sign boundary, chars,
strings, byte blobs), `to_vec a` is strictly below `to_vec b` in
byte-lexicographic order. -/
theorem encoding_preserves_scalar_order (v1 v2 : Value)
    (h1 : scalarBounds v1) (h2 : scalarBounds v2) (hlt : scalarLt v1 v2) :
    ∃ d1 d2, toVec v1 = .ok d1 ∧ toVec v2 = .ok d2 ∧ bytesLt d1 d2 :=
  toVec_order v1 v2 h1 h2 hlt

/-- Witness for C2: the `i8` negative/non-negative boundary `-1 < 0`. -/
theorem encoding_preserves_scalar_order_witness :
    ∃ d1 d2, toVec (.vInt 1 (-1)) = .ok d1 ∧ toVec (.vInt 1 0) = .ok d2 ∧
      bytesLt d1 d2 :=
  encoding_preserves_scalar_order (.vInt 1 (-1)) (.vInt 1 0)
    (by rw [scalarBounds]; decide) (by rw [scalarBounds]; decide)
    (by rw [scalarLt]; decide)

/-- C3: numeric transforms, amended.  The signed-integer sign-bit XOR is
total and self-inverse on every width-matched bit pattern (and the signed
value round-trips through it); the float bit transform is total, and its
encode- and decode-side transforms, which are different functions, are
mutually inverse on width-matched bit patterns.  (The encode-side float
transform is not self-inverse: `float_transform_not_self_inverse`.) -/
theorem transforms_total_inverse :
    (∀ (w b : Nat), iXorPattern w (iXorPattern w b) = b) ∧
    (∀ (w : Nat) (n : Int), 0 < w → -(2 ^ (8 * w - 1)) ≤ n →
      n < 2 ^ (8 * w - 1) → iDecValue w (iEncPattern w n) = n) ∧
    (∀ (wbits b : Nat), 0 < wbits → b < 2 ^ wbits →
      fDecPattern wbits (fEncPattern wbits b) = b ∧
      fEncPattern wbits (fDecPattern wbits b) = b) :=
  ⟨iXorPattern_involutive,
   fun _ n hw hlo hhi => iDecValue_iEncPattern n hw hlo hhi,
   fun _ b hw hb => ⟨fDecPattern_fEncPattern b hw hb, fEncPattern_fDecPattern b hw hb⟩⟩

/-- Witness for C3: the inverses at width 1 and at an f32 pattern. -/
theorem transforms_total_inverse_witness :
    iXorPattern 1 (iXorPattern 1 5) = 5 ∧ fDecPattern 32 (fEncPattern 32 5) = 5 :=
  ⟨transforms_total_inverse.1 1 5,
   (transforms_total_inverse.2.2 32 5 (by decide) (by decide)).1⟩

/-- Counterexample for C3 as stated: the float encode transform applied twice
to the f32 pattern 0 yields `2^31 - 1`, not 0, so it is not self-inverse. -/
theorem float_transform_not_self_inverse :
    fEncPattern 32 (fEncPattern 32 0) ≠ 0 := by
  decide

/-- C4: hex decoding of a numeric or byte-blob component fails exactly when
the component text has odd length or a character outside `0-9a-f`
(`hexDigitVal` is `none`); such a failure surfaces through
`next_component_decode_hex` as `Error::Data`, and otherwise the decoded bytes
are handed on with the component consumed. -/
theorem hex_decode_failure_condition (c : List Char) (rest : List (List Char))
    (input : List Nat) :
    ((∃ e, hexDecode c = .error e) ↔
      c.length % 2 = 1 ∨ ∃ ch ∈ c, hexDigitVal ch = none) ∧
    (∀ e, hexDecode c = .error e →
      nextComponentDecodeHex ⟨input, some (c :: rest)⟩ =
        .error (.data (.hexMessage e))) ∧
    (∀ bs, hexDecode c = .ok bs →
      nextComponentDecodeHex ⟨input, some (c :: rest)⟩ =
        .ok (c, bs, ⟨input, some rest⟩)) :=
  ⟨hexDecode_err_iff c,
   fun _ he => nextComponentDecodeHex_err input rest he,
   fun _ hb => nextComponentDecodeHex_cons input rest hb⟩

/-- Witness for C4: the component `"zz"` is rejected with a data error. -/
theorem hex_decode_failure_condition_witness :
    nextComponentDecodeHex ⟨[], some [['z', 'z']]⟩ =
      .error (.data (.hexMessage (.invalidChar 'z'))) :=
  (hex_decode_failure_condition ['z', 'z'] [] []).2.1 (.invalidChar 'z') rfl

/-- C5: fixed width.  A `w`-byte unsigned or signed integer always encodes to
one component of exactly `2*w` characters, each a lowercase hex digit
(`hexDigitChar` of a value below 16), so same-width encodings compare
byte-for-byte. -/
theorem numeric_fixed_width (w : Nat) (n : Nat) (m : Int) :
    toVecChars (.vUInt w n) = .ok (hexEncode (beBytes w n)) ∧
    (hexEncode (beBytes w n)).length = 2 * w ∧
    (∀ c ∈ hexEncode (beBytes w n), ∃ d, d < 16 ∧ c = hexDigitChar d) ∧
    toVecChars (.vInt w m) = .ok (hexEncode (beBytes w (iEncPattern w m))) ∧
    (hexEncode (beBytes w (iEncPattern w m))).length = 2 * w ∧
    (∀ c ∈ hexEncode (beBytes w (iEncPattern w m)), ∃ d, d < 16 ∧ c = hexDigitChar d) := by
  refine ⟨?_, ?_, ?_, ?_, ?_, ?_⟩
  · rw [toVecChars_eq
      (show flatten (.vUInt w n) = some [hexEncode (beBytes w n)] by rw [flatten]),
      emitComps_single]
  · rw [length_hexEncode, length_beBytes]
  · exact fun c hc => mem_hexEncode (beBytes_lt w n) hc
  · rw [toVecChars_eq (show flatten (.vInt w m) =
      some [hexEncode (beBytes w (iEncPattern w m))] by rw [flatten]),
      emitComps_single]
  · rw [length_hexEncode, length_beBytes]
  · exact fun c hc => mem_hexEncode (beBytes_lt w _) hc

/-- Witness for C5: the `u32` value 0 encodes to 8 characters. -/
theorem numeric_fixed_width_witness :
    (hexEncode (beBytes 4 0)).length = 2 * 4 :=
  (numeric_fixed_width 4 0 0).2.1

/-- C6: flattening and positional delimiters.  Two values with the same
depth-first component sequence encode to byte-identical output; the emitted
text holds exactly `N-1` deliminator occurrences for `N` components (whatever
the nesting), and the unit value contributes zero components. -/
theorem flattening_positional_delimiters (v1 v2 : Value)
    (comps : List (List Char)) (h1 : flatten v1 = some comps)
    (h2 : flatten v2 = some comps) (hnc : ∀ c ∈ comps, ':' ∉ c) :
    toVec v1 = toVec v2 ∧
    toVecChars v1 = .ok (emitComps false comps) ∧
    (emitComps false comps).count ':' = comps.length - 1 ∧
    flatten .vUnit = some [] := by
  refine ⟨?_, toVecChars_eq h1, count_emitComps_false comps hnc, by rw [flatten]⟩
  rw [toVec_eq h1, toVec_eq h2]

/-- Witness for C6: `((true, false), ())` and `(true, (), false)` flatten to
the same two components and encode identically, with one deliminator. -/
theorem flattening_positional_delimiters_witness :
    toVec (.vTuple [.vTuple [.vBool true, .vBool false], .vUnit]) =
      toVec (.vTuple [.vBool true, .vUnit, .vBool false]) ∧
    toVecChars (.vTuple [.vTuple [.vBool true, .vBool false], .vUnit]) =
      .ok (emitComps false ["true".data, "false".data]) ∧
    (emitComps false ["true".data, "false".data]).count ':' =
      ([["true".data, "false".data]] : List (List (List Char))).head!.length - 1 ∧
    flatten .vUnit = some [] :=
  flattening_positional_delimiters _ _ ["true".data, "false".data]
    (by simp [flatten, flattenList]) (by simp [flatten, flattenList]) (by decide)

/-- C7: the unit value, amended.  `to_vec ()` is the empty byte sequence;
decoding the empty input against the unit shape succeeds (a wholly empty
input splits into zero components); and decoding any non-empty input that is
valid UTF-8 against the unit shape fails with `Error::Syntax` from the
trailing `end()` check — but a non-empty input that is not valid UTF-8 fails
with `Error::Utf8StringDecode` instead (`unit_nonutf8_error_kind`). -/
theorem unit_empty_decode :
    toVec .vUnit = .ok [] ∧
    fromSlice .sUnit [] = .ok .vUnit ∧
    (∀ (input : List Nat) (chars : List Char), input ≠ [] →
      utf8Decode input = some chars →
      fromSlice .sUnit input = .error .syntaxError) := by
  refine ⟨?_, ?_, fun _ _ hne hdec => fromSlice_unit_nonempty hne hdec⟩
  · rw [toVec, serValue_flatten_ok .vUnit ⟨[], false⟩ [] (by rw [flatten])]
    rfl
  · have hds : decodeShape .sUnit ⟨[], none⟩ = .ok (.vUnit, ⟨[], some []⟩) := by
      rw [decodeShape]
      rfl
    rw [fromSlice, hds]
    rfl

/-- Witness for C7: the non-empty ASCII input `"a"` is rejected with a
syntax error by the unit shape's trailing check. -/
theorem unit_empty_decode_witness :
    fromSlice .sUnit [97] = .error .syntaxError :=
  unit_empty_decode.2.2 [97] ['a'] (by decide) rfl

/-- Counterexample for C7 as stated: the non-empty input `0xFE` is not valid
UTF-8, and decoding it against the unit shape fails with
`Error::Utf8StringDecode`, not the claimed `SyntaxError`. -/
theorem unit_nonutf8_error_kind :
    fromSlice .sUnit [254] = .error .utf8StringDecode ∧
    Error.utf8StringDecode ≠ Error.syntaxError := by
  constructor
  · have hpre : preloadComponents ⟨[254], none⟩ = .error .utf8StringDecode := rfl
    rw [fromSlice, decodeShape, hpre]
  · decide

/-- C8: scalar decode errors, amended.  Every scalar shape consumes exactly
one component; a wrong boolean literal, a component that is not exactly one
character for `char`, a hex-decoded byte count that mismatches the declared
numeric width, and an unmatched enum variant name each fail with
`Error::Data` carrying the offending component — but a hex charset or parity
failure carries the hex error's message, not the component
(`hex_error_payload_not_component`). -/
theorem scalar_decode_data_errors :
    (∀ (c : List Char) (rest : List (List Char)) (input : List Nat),
      c ≠ "true".data → c ≠ "false".data →
      decodeShape .sBool ⟨input, some (c :: rest)⟩ =
        .error (.data (.component c))) ∧
    (∀ (c : List Char) (rest : List (List Char)) (input : List Nat),
      (∀ ch, c ≠ [ch]) →
      decodeShape .sChar ⟨input, some (c :: rest)⟩ =
        .error (.data (.component c))) ∧
    (∀ (w : Nat) (c : List Char) (bs : List Nat) (rest : List (List Char))
      (input : List Nat), hexDecode c = .ok bs → bs.length ≠ w →
      decodeShape (.sUInt w) ⟨input, some (c :: rest)⟩ =
        .error (.data (.component c))) ∧
    (∀ (w : Nat) (c : List Char) (e : HexError) (rest : List (List Char))
      (input : List Nat), hexDecode c = .error e →
      decodeShape (.sUInt w) ⟨input, some (c :: rest)⟩ =
        .error (.data (.hexMessage e))) ∧
    (∀ (variants : List (List Char)) (c : List Char) (rest : List (List Char))
      (input : List Nat), c ∉ variants →
      decodeShape (.sEnum variants) ⟨input, some (c :: rest)⟩ =
        .error (.data (.component c))) ∧
    (∀ (c : List Char) (rest : List (List Char)) (input : List Nat),
      decodeShape .sStr ⟨input, some (c :: rest)⟩ =
        .ok (.vStr c, ⟨input, some rest⟩)) := by
  refine ⟨?_, ?_, ?_, ?_, ?_, ?_⟩
  · intro c rest input h1 h2
    rw [decodeShape, nextComponent_cons]
    dsimp only
    rw [if_neg h1, if_neg h2]
  · intro c rest input h
    rw [decodeShape, nextComponent_cons]
    dsimp only
    rcases c with _ | ⟨ch, _ | ⟨ch2, tl⟩⟩
    · rfl
    · exact absurd rfl (h ch)
    · rfl
  · intro w c bs rest input hok hlen
    rw [decodeShape, nextComponentDecodeHex_cons input rest hok]
    dsimp only
    rw [if_neg hlen]
  · intro w c e rest input herr
    rw [decodeShape, nextComponentDecodeHex_err input rest herr]
  · intro variants c rest input hmem
    rw [decodeShape, nextComponent_cons]
    dsimp only
    rw [if_neg hmem]
  · intro c rest input
    rw [decodeShape, nextComponent_cons]

/-- Witness for C8: the component `"x"` is no boolean literal and fails with
a data error carrying the component. -/
theorem scalar_decode_data_errors_witness :
    decodeShape .sBool ⟨[], some [['x']]⟩ = .error (.data (.component ['x'])) :=
  scalar_decode_data_errors.1 ['x'] [] [] (by decide) (by decide)

/-- Counterexample for C8 as stated: decoding `"zz"` as a 1-byte unsigned
integer fails with a `Data` error that carries the hex error's message, which
is not the offending component text of the original claim. -/
theorem hex_error_payload_not_component :
    fromSlice (.sUInt 1) (docBytes ['z', 'z']) =
      .error (.data (.hexMessage (.invalidChar 'z'))) ∧
    (∀ c : List Char, DataPayload.hexMessage (.invalidChar 'z') ≠ .component c) := by
  constructor
  · have herr : nextComponentDecodeHex ⟨docBytes ['z', 'z'], none⟩ =
        .error (.data (.hexMessage (.invalidChar 'z'))) := by
      rw [nextComponentDecodeHex]
      have h1 : nextComponent ⟨docBytes ['z', 'z'], none⟩ =
          .ok (some ['z', 'z'], ⟨docBytes ['z', 'z'], some []⟩) := rfl
      rw [h1]
      rfl
    rw [fromSlice, decodeShape, herr]
  · exact fun c h => DataPayload.noConfusion h

/-- C9: unsupported kinds.  Serializing `None`, `Some`, a dynamic sequence, a
map, or an enum variant with a newtype/tuple/struct payload returns
`Error::UnsupportedType` with the writer state untouched, and `to_vec` of any
value nesting such a kind fails with `UnsupportedType`. -/
theorem unsupported_kinds_rejected :
    (∀ st, serValue .vNone st = (st, some .unsupportedType)) ∧
    (∀ st, serValue .vMap st = (st, some .unsupportedType)) ∧
    (∀ v st, serValue (.vSome v) st = (st, some .unsupportedType)) ∧
    (∀ vs st, serValue (.vSeq vs) st = (st, some .unsupportedType)) ∧
    (∀ name v st, serValue (.vNewtypeVariant name v) st =
      (st, some .unsupportedType)) ∧
    (∀ name vs st, serValue (.vTupleVariant name vs) st =
      (st, some .unsupportedType)) ∧
    (∀ name vs st, serValue (.vStructVariant name vs) st =
      (st, some .unsupportedType)) ∧
    (∀ v, hasUnsupported v = true → toVec v = .error .unsupportedType) :=
  ⟨fun _ => by rw [serValue], fun _ => by rw [serValue],
   fun _ _ => by rw [serValue], fun _ _ => by rw [serValue],
   fun _ _ _ => by rw [serValue], fun _ _ _ => by rw [serValue],
   fun _ _ _ => by rw [serValue],
   fun v hv => toVec_err ((flatten_none_iff v).mpr hv)⟩

/-- Witness for C9: a tuple nesting `None` is rejected by `to_vec`. -/
theorem unsupported_kinds_rejected_witness :
    toVec (.vTuple [.vBool true, .vNone]) = .error .unsupportedType :=
  unsupported_kinds_rejected.2.2.2.2.2.2.2 _
    (by simp [hasUnsupported, hasUnsupportedList])

/-- C10: the empty string does not round-trip at the top level: `to_vec ""`
is the empty byte sequence, the wholly empty input preloads into zero
components (not one empty component), the first component read then finds
nothing, and `from_slice` against the string shape fails with
`Error::Syntax`. -/
theorem empty_string_no_roundtrip :
    toVec (.vStr []) = .ok [] ∧
    preloadComponents ⟨[], none⟩ = .ok ⟨[], some []⟩ ∧
    nextComponent ⟨[], none⟩ = .ok (none, ⟨[], some []⟩) ∧
    fromSlice .sStr [] = .error .syntaxError := by
  refine ⟨?_, rfl, rfl, ?_⟩
  · rw [toVec_eq (show flatten (.vStr []) = some [[]] by rw [flatten])]
    rfl
  · have h1 : nextComponent ⟨([] : List Nat), none⟩ =
        .ok (none, ⟨[], some []⟩) := rfl
    rw [fromSlice, decodeShape, h1]

end Strkey
